import Mathlib

/-!
Verification of the analysis-result reconciliation and file-sync engine of
the auto-cursor-rules repository.

The development shallowly embeds the two relevant modules:

* `analyzer.ts` — the external-agent invoker: extraction of a JSON payload
  from the agent's stdout (a greedy first-brace-to-last-brace regex match),
  `JSON.parse`, and the one-level unwrap of a `result`-wrapped payload,
  together with the fallback structuring `parseRawOutput`.
* `rules-manager.ts` — the rule-file synchronizer: `convertToMDC`,
  `needsUpdate`, `generateFilename`, `writeRules`, `createSummary` and
  `cleanupOldRules`, modelled over an explicit file-system state.

The file system is modelled as a single directory (the rules directory):
a flag for its existence, an association list from file name to content
(insertion-ordered, as `readdirSync` enumeration order), and a list of
file names on which a write or unlink raises (modelling `fs` exceptions).
JavaScript strings are modelled as Lean strings; `toLowerCase`, `trim` and
the `\s` character class are modelled on their ASCII behaviour, which covers
every name and content the program itself generates.
-/

namespace AutoCursorRules

/-! ## JavaScript string primitives -/

/-- ASCII model of the JavaScript `\s` character class (space, tab, line
feed, carriage return, form feed, vertical tab). -/
def isJsWsChar (c : Char) : Bool :=
  c = ' ' || c = '\t' || c = '\n' || c = '\r' || c = '\x0c' || c = '\x0b'

/-- ASCII model of JavaScript `String.prototype.toLowerCase`. -/
def sLower (s : String) : String :=
  String.mk (s.toList.map Char.toLower)

/-- Drop JavaScript whitespace from both ends of a character list
(model of `String.prototype.trim`). -/
def jsTrimList (cs : List Char) : List Char :=
  ((cs.dropWhile isJsWsChar).reverse.dropWhile isJsWsChar).reverse

/-- Worker for `collapseWsWith`: the flag records whether the previous
character belonged to a whitespace run, so each maximal run emits
exactly one replacement character at its start — also when a literal
copy of the replacement character sits next to the run, as the JS
regex replaces per run, not per resulting character. -/
def collapseWsGo (r : Char) : Bool → List Char → List Char
  | _, [] => []
  | inRun, c :: cs =>
    if isJsWsChar c then
      if inRun then collapseWsGo r true cs
      else r :: collapseWsGo r true cs
    else c :: collapseWsGo r false cs

/-- Replace every maximal run of JavaScript whitespace by the single
character `r` (model of `.replace(/\s+/g, r)`). -/
def collapseWsWith (r : Char) (l : List Char) : List Char :=
  collapseWsGo r false l

/-- Whitespace-normalized form used by `needsUpdate`:
`s.trim().replace(/\s+/g, ' ')`. -/
def normalize (s : String) : String :=
  String.mk (collapseWsWith ' ' (jsTrimList s.toList))

/-! ## JSON values and a model of JSON.parse

Numbers are kept as their source lexeme: none of the verified claims
depends on numeric values, only on parse success and structural shape. -/

inductive Json where
  | jnull
  | jbool (b : Bool)
  | jnum (lit : String)
  | jstr (s : String)
  | jarr (elems : List Json)
  | jobj (fields : List (String × Json))

/-- JSON-grammar whitespace (space, tab, line feed, carriage return). -/
def isJsonWs (c : Char) : Bool :=
  c = ' ' || c = '\t' || c = '\n' || c = '\r'

def skipWs (cs : List Char) : List Char :=
  cs.dropWhile isJsonWs

def isHexDigit (c : Char) : Bool :=
  c.isDigit || ('a' ≤ c && c ≤ 'f') || ('A' ≤ c && c ≤ 'F')

def hexVal (c : Char) : Nat :=
  if c.isDigit then c.toNat - '0'.toNat
  else if 'a' ≤ c && c ≤ 'f' then c.toNat - 'a'.toNat + 10
  else c.toNat - 'A'.toNat + 10

/-- Parse the body of a JSON string literal (the opening quote already
consumed), returning the decoded string and the rest of the input. -/
def parseStrBody (fuel : Nat) (acc : List Char) (cs : List Char) :
    Except String (String × List Char) :=
  match fuel with
  | 0 => .error "internal fuel exhausted"
  | fuel + 1 =>
    match cs with
    | [] => .error "Unterminated string in JSON"
    | '"' :: rest => .ok (String.mk acc.reverse, rest)
    | '\\' :: rest =>
      match rest with
      | [] => .error "Unterminated string in JSON"
      | e :: rest2 =>
        if e = '"' then parseStrBody fuel ('"' :: acc) rest2
        else if e = '\\' then parseStrBody fuel ('\\' :: acc) rest2
        else if e = '/' then parseStrBody fuel ('/' :: acc) rest2
        else if e = 'b' then parseStrBody fuel ('\x08' :: acc) rest2
        else if e = 'f' then parseStrBody fuel ('\x0c' :: acc) rest2
        else if e = 'n' then parseStrBody fuel ('\n' :: acc) rest2
        else if e = 'r' then parseStrBody fuel ('\r' :: acc) rest2
        else if e = 't' then parseStrBody fuel ('\t' :: acc) rest2
        else if e = 'u' then
          match rest2 with
          | h1 :: h2 :: h3 :: h4 :: rest3 =>
            if isHexDigit h1 && isHexDigit h2 && isHexDigit h3 && isHexDigit h4 then
              let n := ((hexVal h1 * 16 + hexVal h2) * 16 + hexVal h3) * 16 + hexVal h4
              let c := if h : n.isValidChar then Char.ofNatAux n h else ' '
              parseStrBody fuel (c :: acc) rest3
            else .error "Bad Unicode escape in JSON"
          | _ => .error "Bad Unicode escape in JSON"
        else .error "Bad escaped character in JSON"
    | c :: rest =>
      if c.toNat < 0x20 then .error "Bad control character in JSON string"
      else parseStrBody fuel (c :: acc) rest

/-- Parse a JSON number lexeme starting at the head of the input. -/
def parseNumLit (cs : List Char) : Except String (String × List Char) :=
  let (sign, cs1) := match cs with
    | '-' :: rest => (['-'], rest)
    | _ => (([] : List Char), cs)
  match cs1 with
  | [] => .error "Unexpected end of JSON input"
  | d :: rest =>
    if !d.isDigit then .error "Unexpected token in JSON"
    else
      let (intRest, cs2) :=
        if d = '0' then (([] : List Char), rest)
        else (rest.takeWhile Char.isDigit, rest.dropWhile Char.isDigit)
      match cs2 with
      | '.' :: frest =>
        match frest with
        | f :: _ =>
          if f.isDigit then
            let fracDigits := frest.takeWhile Char.isDigit
            let cs3 := frest.dropWhile Char.isDigit
            match parseExpPart cs3 with
            | .error e => .error e
            | .ok (expPart, cs4) =>
              .ok (String.mk (sign ++ [d] ++ intRest ++ '.' :: fracDigits ++ expPart), cs4)
          else .error "Unexpected token in JSON"
        | [] => .error "Unexpected end of JSON input"
      | _ =>
        match parseExpPart cs2 with
        | .error e => .error e
        | .ok (expPart, cs4) =>
          .ok (String.mk (sign ++ [d] ++ intRest ++ expPart), cs4)
where
  /-- Parse an optional exponent part of a JSON number. -/
  parseExpPart (cs : List Char) : Except String (List Char × List Char) :=
    match cs with
    | e :: erest =>
      if e = 'e' || e = 'E' then
        let (sgn, csa) := match erest with
          | '+' :: t => (['+'], t)
          | '-' :: t => (['-'], t)
          | _ => (([] : List Char), erest)
        match csa with
        | d2 :: _ =>
          if d2.isDigit then
            .ok (e :: sgn ++ csa.takeWhile Char.isDigit, csa.dropWhile Char.isDigit)
          else .error "Unexpected token in JSON"
        | [] => .error "Unexpected end of JSON input"
      else .ok ([], cs)
    | [] => .ok ([], cs)

mutual

/-- Parse one JSON value; leading whitespace is skipped. -/
def parseVal (fuel : Nat) (cs : List Char) : Except String (Json × List Char) :=
  match fuel with
  | 0 => .error "internal fuel exhausted"
  | fuel + 1 =>
    match skipWs cs with
    | [] => .error "Unexpected end of JSON input"
    | c :: rest =>
      if c = 'n' then
        match rest with
        | 'u' :: 'l' :: 'l' :: rest2 => .ok (.jnull, rest2)
        | _ => .error "Unexpected token in JSON"
      else if c = 't' then
        match rest with
        | 'r' :: 'u' :: 'e' :: rest2 => .ok (.jbool true, rest2)
        | _ => .error "Unexpected token in JSON"
      else if c = 'f' then
        match rest with
        | 'a' :: 'l' :: 's' :: 'e' :: rest2 => .ok (.jbool false, rest2)
        | _ => .error "Unexpected token in JSON"
      else if c = '"' then
        match parseStrBody (rest.length + 1) [] rest with
        | .ok (s, rest2) => .ok (.jstr s, rest2)
        | .error e => .error e
      else if c = '[' then
        match skipWs rest with
        | ']' :: rest2 => .ok (.jarr [], rest2)
        | _ => parseElems fuel [] rest
      else if c = '{' then
        match skipWs rest with
        | '}' :: rest2 => .ok (.jobj [], rest2)
        | _ => parseFields fuel [] rest
      else if c = '-' || c.isDigit then
        match parseNumLit (c :: rest) with
        | .ok (lit, rest2) => .ok (.jnum lit, rest2)
        | .error e => .error e
      else .error "Unexpected token in JSON"

/-- Parse the elements of a JSON array after its opening bracket. -/
def parseElems (fuel : Nat) (acc : List Json) (cs : List Char) :
    Except String (Json × List Char) :=
  match fuel with
  | 0 => .error "internal fuel exhausted"
  | fuel + 1 =>
    match parseVal fuel cs with
    | .error e => .error e
    | .ok (v, rest) =>
      match skipWs rest with
      | ',' :: rest2 => parseElems fuel (v :: acc) rest2
      | ']' :: rest2 => .ok (.jarr (v :: acc).reverse, rest2)
      | _ => .error "Expected comma or bracket in JSON array"

/-- Parse the fields of a JSON object after its opening brace. -/
def parseFields (fuel : Nat) (acc : List (String × Json)) (cs : List Char) :
    Except String (Json × List Char) :=
  match fuel with
  | 0 => .error "internal fuel exhausted"
  | fuel + 1 =>
    match skipWs cs with
    | '"' :: rest =>
      match parseStrBody (rest.length + 1) [] rest with
      | .error e => .error e
      | .ok (k, rest2) =>
        match skipWs rest2 with
        | ':' :: rest3 =>
          match parseVal fuel rest3 with
          | .error e => .error e
          | .ok (v, rest4) =>
            match skipWs rest4 with
            | ',' :: rest5 => parseFields fuel ((k, v) :: acc) rest5
            | '}' :: rest5 => .ok (.jobj ((k, v) :: acc).reverse, rest5)
            | _ => .error "Expected comma or brace in JSON object"
        | _ => .error "Expected colon in JSON object"
    | _ => .error "Expected string key in JSON object"

end

/-- Model of `JSON.parse`: parse one value and require that only
whitespace follows it. -/
def jsParse (s : String) : Except String Json :=
  match parseVal (4 * s.length + 16) s.toList with
  | .error e => .error e
  | .ok (v, rest) =>
    if skipWs rest = [] then .ok v
    else .error "Unexpected non-whitespace character after JSON data"

/-- Value of an object property, with the JavaScript rule that a later
duplicate key overrides an earlier one. -/
def jsGet (fields : List (String × Json)) (key : String) : Option Json :=
  (fields.filter (fun p => p.1 = key)).getLast? |>.map Prod.snd

/-! ## The external-agent invoker (analyzer.ts) -/

/-- Result record of `analyzeCodebase`; `data` carries the parsed JSON
value, which the source casts to `AnalysisData` without validation. -/
structure AgentResult where
  success : Bool
  data : Option Json
  error : Option String
  rawOutput : Option String

/-- Model of `stdout.match(/\x7b[\s\S]*\x7d/)`: the regex match is greedy,
so it spans from the first brace that has a later closing brace (which is
the first brace of the string, when any match exists) to the last closing
brace of the whole string. -/
def jsonCandidate (s : String) : Option String :=
  let cs := s.toList
  match cs.findIdx? (fun c => c = '{') with
  | none => none
  | some i =>
    match cs.reverse.findIdx? (fun c => c = '}') with
    | none => none
    | some jr =>
      let j := cs.length - 1 - jr
      if i < j then some (String.mk ((cs.drop i).take (j - i + 1)))
      else none

/-- Modelled from the spec: the first balanced top-level JSON object
substring of `s`, obtained by brace matching (count opening and closing
braces from the first opening brace until the count returns to zero).
This is the extraction the specification describes; it is compared with
the source's greedy regex extraction `jsonCandidate`. -/
def firstBalancedObject (s : String) : Option String :=
  let cs := s.toList
  match cs.findIdx? (fun c => c = '{') with
  | none => none
  | some i => (balancedScan (cs.drop i) 0 []).map (fun l => String.mk l.reverse)
where
  /-- Scan for the closing brace matching the opening brace at the head. -/
  balancedScan : List Char → Nat → List Char → Option (List Char)
    | [], _, _ => none
    | c :: rest, depth, acc =>
      if c = '{' then balancedScan rest (depth + 1) (c :: acc)
      else if c = '}' then
        if depth ≤ 1 then some (c :: acc)
        else balancedScan rest (depth - 1) (c :: acc)
      else balancedScan rest depth (c :: acc)

/-- Message produced when stdout has no brace-delimited candidate. -/
def noJsonMsg : String := "No JSON found in cursor-agent output"

/-- Whether a parsed value is a wrapper: an object whose `result`
property is a string (the shape cursor-agent wraps its payload in). -/
def isWrapperObj (v : Json) : Bool :=
  match v with
  | .jobj fields =>
    match jsGet fields "result" with
    | some (.jstr _) => true
    | _ => false
  | _ => false

/-- One-level unwrap of a `result`-wrapped payload, as in the source:
when the parsed object has a string-valued `result` property, re-extract
a brace-delimited candidate from that string and re-parse it; an inner
parse error propagates to the surrounding catch, and when the inner
string has no candidate the outer object is kept.  The returned value is
not inspected again: the unwrap happens at most once. -/
def unwrapOnce (v : Json) : Except String Json :=
  match v with
  | .jobj fields =>
    match jsGet fields "result" with
    | some (.jstr inner) =>
      match jsonCandidate inner with
      | some c2 => jsParse c2
      | none => .ok v
    | _ => .ok v
  | _ => .ok v

/-- The zero-exit stdout handling of `analyzeCodebase`: extract a
candidate substring, `JSON.parse` it, unwrap one wrapper level, and
package the outcome; parse errors are caught and reported with the raw
stdout retained. -/
def parseStdout (stdout : String) : AgentResult :=
  match jsonCandidate stdout with
  | none => ⟨false, none, some noJsonMsg, some stdout⟩
  | some cand =>
    match (jsParse cand).bind unwrapOnce with
    | .ok v => ⟨true, some v, none, some stdout⟩
    | .error e =>
      ⟨false, none,
       some ("Failed to parse cursor-agent output as JSON: " ++ e),
       some stdout⟩

/-- The close handler of `analyzeCodebase`: a nonzero exit code reports a
process failure with the captured stderr; a zero exit parses stdout. -/
def onClose (code : Int) (stdout stderr : String) : AgentResult :=
  if code ≠ 0 then
    ⟨false, none,
     some ("cursor-agent exited with code " ++ toString code ++ ": " ++ stderr),
     some stdout⟩
  else parseStdout stdout

/-! ## Data contracts (types.ts) -/

/-- The `ruleType` union of `RuleCategory`. -/
inductive RuleType where
  | always
  | autoAttached
  | agentRequested
  | manual
deriving DecidableEq

/-- A single rule. -/
structure Rule where
  name : String
  description : String
  examples : Option (List String) := none
  category : Option String := none
deriving DecidableEq

/-- A category of rules. -/
structure RuleCategory where
  title : String
  description : Option String := none
  rules : List Rule
  globs : Option (List String) := none
  alwaysApply : Option Bool := none
  ruleType : Option RuleType := none
deriving DecidableEq

/-- `AnalysisData` is an open string-keyed mapping to optional
categories; it is modelled as an insertion-ordered association list, the
order `Object.entries` enumerates. -/
abbrev AnalysisData := List (String × Option RuleCategory)

/-- Result of rules management operations. -/
structure RulesManagerResult where
  success : Bool
  created : List String
  updated : List String
  unchanged : List String
  error : Option String := none
deriving DecidableEq

/-- Existing rule file information (the `path` field of the source is the
directory joined with the filename and is omitted). -/
structure ExistingRuleFile where
  filename : String
  content : String
deriving DecidableEq

/-! ## The file-system model

One directory (the rules directory): an existence flag, an ordered list
of (name, content) entries as `readdirSync` enumerates them, and the set
of names on which a write or unlink raises an exception.  Writing to an
existing name replaces its content in place; writing a new name appends
it.  Errors carry the file system at the moment of the exception, so the
surrounding catch observes the partially-updated state. -/

structure FS where
  dirExists : Bool
  files : List (String × String)
  broken : List String
deriving DecidableEq

/-- Replace the content of `name` in place, or append it. -/
def upsert (l : List (String × String)) (name content : String) :
    List (String × String) :=
  match l with
  | [] => [(name, content)]
  | (m, x) :: rest =>
    if m = name then (m, content) :: rest
    else (m, x) :: upsert rest name content

/-- Model of `fs.mkdirSync` guarded by `fs.existsSync`
(`ensureRulesDirectory`). -/
def fsEnsureDir (fs : FS) : FS :=
  if fs.dirExists then fs else { fs with dirExists := true }

/-- Model of `fs.writeFileSync` inside the rules directory. -/
def fsWriteFile (fs : FS) (name content : String) :
    Except (String × FS) FS :=
  if fs.broken.contains name then
    .error ("EACCES: permission denied, open " ++ name, fs)
  else if fs.dirExists then
    .ok { fs with files := upsert fs.files name content }
  else
    .error ("ENOENT: no such file or directory, open " ++ name, fs)

/-- Model of `fs.unlinkSync` inside the rules directory. -/
def fsUnlink (fs : FS) (name : String) : Except (String × FS) FS :=
  if fs.broken.contains name then
    .error ("EACCES: permission denied, unlink " ++ name, fs)
  else
    .ok { fs with files := fs.files.filter (fun p => p.1 ≠ name) }

/-! ## The rule-file synchronizer (rules-manager.ts) -/

/-- Recognized rule-file extensions: `.mdc` (Cursor), `.md` (legacy) and
`.txt`. -/
def recognizedExt (name : String) : Bool :=
  ".mdc".toList.isSuffixOf name.toList ||
  ".md".toList.isSuffixOf name.toList ||
  ".txt".toList.isSuffixOf name.toList

/-- Model of `readExistingRules`: an empty list when the directory does
not exist, otherwise the recognized-extension files in directory order. -/
def readExistingRules (fs : FS) : List ExistingRuleFile :=
  if fs.dirExists then
    (fs.files.filter (fun p => recognizedExt p.1)).map (fun p => ⟨p.1, p.2⟩)
  else []

/-- The `alwaysApply` frontmatter policy of `convertToMDC`: an explicit
`alwaysApply` wins; else `ruleType === always` forces true; else the flag
defaults to true exactly for the two conventional category names. -/
def mdcAlwaysApply (categoryName : String) (category : RuleCategory) : Bool :=
  match category.alwaysApply with
  | some b => b
  | none =>
    if category.ruleType = some RuleType.always then true
    else categoryName = "bestPractices" || categoryName = "conventions"

/-- JavaScript string falsiness: `o || dflt` where an empty string falls
through to the default. -/
def strOrElse (o : Option String) (dflt : String) : String :=
  match o with
  | some s => if s = "" then dflt else s
  | none => dflt

/-- Escape one character as `JSON.stringify` does inside a string. -/
def jsEscapeChar (c : Char) : String :=
  if c = '"' then "\\\""
  else if c = '\\' then "\\\\"
  else if c = '\n' then "\\n"
  else if c = '\r' then "\\r"
  else if c = '\t' then "\\t"
  else if c = '\x08' then "\\b"
  else if c = '\x0c' then "\\f"
  else if c.toNat < 0x20 then
    "\\u00" ++ String.mk [hexDigit (c.toNat / 16), hexDigit (c.toNat % 16)]
  else String.singleton c
where
  /-- Lower-case hexadecimal digit for a value below 16. -/
  hexDigit (n : Nat) : Char :=
    if n < 10 then Char.ofNat ('0'.toNat + n) else Char.ofNat ('a'.toNat + n - 10)

/-- Model of `JSON.stringify` on a string. -/
def jsStringifyStr (s : String) : String :=
  "\"" ++ String.join (s.toList.map jsEscapeChar) ++ "\""

/-- Model of `JSON.stringify` on an array of strings. -/
def jsStringifyStrList (xs : List String) : String :=
  "[" ++ String.intercalate "," (xs.map jsStringifyStr) ++ "]"

/-- One bullet line per rule, with examples as nested bullets. -/
def ruleBullets (rules : List Rule) : String :=
  String.join (rules.map (fun r =>
    "- **" ++ r.name ++ "**: " ++ r.description ++ "\n" ++
    (match r.examples with
     | some exs =>
       if exs.length > 0 then
         String.join (exs.map (fun e => "  - " ++ e ++ "\n"))
       else ""
     | none => "") ++ "\n"))

/-- Model of `convertToMDC`: frontmatter (description, optional globs,
alwaysApply flag) followed by the rule bullets. -/
def convertToMDC (categoryName : String) (category : RuleCategory) : String :=
  "---\n" ++
  "description: " ++ strOrElse category.description category.title ++ "\n" ++
  (match category.globs with
   | some gs =>
     if gs.length > 0 then "globs: " ++ jsStringifyStrList gs ++ "\n" else ""
   | none => "") ++
  "alwaysApply: " ++ (if mdcAlwaysApply categoryName category then "true" else "false") ++ "\n" ++
  "---\n\n" ++
  ruleBullets category.rules

/-- Model of `needsUpdate`: whitespace-normalized inequality. -/
def needsUpdate (existingContent newContent : String) : Bool :=
  normalize existingContent ≠ normalize newContent

/-- Model of `generateFilename`: lowercase the category name, replace
whitespace runs with hyphens, append the `.mdc` extension. -/
def generateFilename (categoryName : String) : String :=
  String.mk (collapseWsWith '-' (sLower categoryName).toList) ++ ".mdc"

/-- Whether `writeRules` skips a category: absent, or an empty rule
sequence (the `!category || !category.rules || length === 0` guard). -/
def catSkipped (c : Option RuleCategory) : Bool :=
  match c with
  | none => true
  | some cat => cat.rules.isEmpty

/-- The fixed name of the summary document. -/
def summaryFilename : String := "README.md"

/-- The line `createSummary` renders for one entry of the mapping: a
link line for a non-empty category, nothing for a skipped one. -/
def summaryEntryLine (e : String × Option RuleCategory) : String :=
  match e.2 with
  | some cat =>
    if cat.rules.isEmpty then ""
    else
      "- [" ++ cat.title ++ "](./" ++ generateFilename e.1 ++ ") - " ++
      strOrElse cat.description ("Rules for " ++ cat.title) ++
      " (" ++ toString cat.rules.length ++ " rules)\n"
  | none => ""

/-- Model of `createSummary`: a fixed header, one link line per
non-empty category, and a trailer carrying the generation timestamp
(`now` stands for `new Date().toISOString()`). -/
def createSummary (analysisData : AnalysisData) (now : String) : String :=
  "# Cursor Rules - Auto Generated\n\n" ++
  "This directory contains automatically generated rules for this codebase.\n\n" ++
  "## Rule Categories\n\n" ++
  String.join (analysisData.map summaryEntryLine) ++
  "\n---\n\n" ++
  "Generated on: " ++ now ++ "\n" ++
  "Generator: agent-rule-sync\n"

/-- The per-category loop of `writeRules`: classify each non-skipped
category against the pass-start snapshot `existing` (matching filenames
case-insensitively), write unless dry-run, and push the filename onto the
matching result list. -/
def processCats (existing : List ExistingRuleFile) (dryRun : Bool) :
    List (String × Option RuleCategory) → RulesManagerResult → FS →
    Except (String × FS) (RulesManagerResult × FS)
  | [], res, fs => .ok (res, fs)
  | (categoryName, category) :: rest, res, fs =>
    match category with
    | none => processCats existing dryRun rest res fs
    | some cat =>
      if cat.rules.isEmpty then processCats existing dryRun rest res fs
      else
        let filename := generateFilename categoryName
        let mdc := convertToMDC categoryName cat
        match existing.find? (fun r => sLower r.filename = sLower filename) with
        | some existingFile =>
          if needsUpdate existingFile.content mdc then
            match (if dryRun then .ok fs else fsWriteFile fs filename mdc) with
            | .error e => .error e
            | .ok fs2 =>
              processCats existing dryRun rest
                { res with updated := res.updated ++ [filename] } fs2
          else
            processCats existing dryRun rest
              { res with unchanged := res.unchanged ++ [filename] } fs
        | none =>
          match (if dryRun then .ok fs else fsWriteFile fs filename mdc) with
          | .error e => .error e
          | .ok fs2 =>
            processCats existing dryRun rest
              { res with created := res.created ++ [filename] } fs2

/-- The summary step of `writeRules`: create `README.md` when no
case-insensitive match exists in the pass-start snapshot, otherwise
update or report it unchanged under the same comparison. -/
def summaryStep (analysisData : AnalysisData) (now : String)
    (existing : List ExistingRuleFile) (existingLower : List String)
    (dryRun : Bool) (res : RulesManagerResult) (fs : FS) :
    Except (String × FS) (RulesManagerResult × FS) :=
  let summary := createSummary analysisData now
  if !(existingLower.contains (sLower summaryFilename)) then
    match (if dryRun then .ok fs else fsWriteFile fs summaryFilename summary) with
    | .error e => .error e
    | .ok fs2 => .ok ({ res with created := res.created ++ [summaryFilename] }, fs2)
  else
    match existing.find? (fun r => sLower r.filename = sLower summaryFilename) with
    | some existingFile =>
      if needsUpdate existingFile.content summary then
        match (if dryRun then .ok fs else fsWriteFile fs summaryFilename summary) with
        | .error e => .error e
        | .ok fs2 => .ok ({ res with updated := res.updated ++ [summaryFilename] }, fs2)
      else if res.unchanged.contains summaryFilename then .ok (res, fs)
      else .ok ({ res with unchanged := res.unchanged ++ [summaryFilename] }, fs)
    | none =>
      if res.unchanged.contains summaryFilename then .ok (res, fs)
      else .ok ({ res with unchanged := res.unchanged ++ [summaryFilename] }, fs)

/-- The deletion condition of `cleanupOldRules`: a file is stale when its
lowercased name is not among the lowercased keep names and it carries a
recognized extension. -/
def staleName (keepLower : List String) (n : String) : Bool :=
  !(keepLower.contains (sLower n)) && recognizedExt n

/-- The deletion loop of `cleanupOldRules`, iterating over a snapshot of
the directory listing. -/
def cleanupLoop (keepLower : List String) (dryRun : Bool) :
    List String → FS → Except (String × FS) (List String × FS)
  | [], fs => .ok ([], fs)
  | n :: rest, fs =>
    if staleName keepLower n then
      match (if dryRun then .ok fs else fsUnlink fs n) with
      | .error e => .error e
      | .ok fs2 =>
        match cleanupLoop keepLower dryRun rest fs2 with
        | .error e => .error e
        | .ok (removed, fs3) => .ok (n :: removed, fs3)
    else cleanupLoop keepLower dryRun rest fs

/-- Model of `cleanupOldRules`: delete every recognized-extension file
whose lowercased name is not among the lowercased keep names (unless
dry-run), returning the removed names. -/
def cleanupOldRules (fs : FS) (keepFiles : List String) (dryRun : Bool) :
    Except (String × FS) (List String × FS) :=
  if !fs.dirExists then .ok ([], fs)
  else cleanupLoop (keepFiles.map sLower) dryRun (fs.files.map Prod.fst) fs

/-- Model of `writeRules`: ensure the directory (unless dry-run), read
the snapshot once, classify and write each category, handle the summary
document, then clean up stale files; any file-system exception aborts the
pass, returning `success:false` with the message and empty lists while
the files already written stay on disk. -/
def writeRules (analysisData : AnalysisData) (dryRun : Bool) (now : String)
    (fs0 : FS) : RulesManagerResult × FS :=
  let fs1 := if dryRun then fs0 else fsEnsureDir fs0
  let existing := readExistingRules fs1
  let existingLower := existing.map (fun r => sLower r.filename)
  let pass : Except (String × FS) (RulesManagerResult × FS) :=
    match processCats existing dryRun analysisData ⟨true, [], [], [], none⟩ fs1 with
    | .error e => .error e
    | .ok (res1, fsA) =>
      match summaryStep analysisData now existing existingLower dryRun res1 fsA with
      | .error e => .error e
      | .ok (res2, fsB) =>
        let keepFiles := res2.created ++ res2.updated ++ res2.unchanged
        match cleanupOldRules fsB keepFiles dryRun with
        | .error e => .error e
        | .ok (_, fsC) => .ok (res2, fsC)
  match pass with
  | .ok (res, fs2) => (res, fs2)
  | .error (msg, fsE) => (⟨false, [], [], [], some msg⟩, fsE)

/-! ## The fallback structuring and the orchestrator step (analyzer.ts,
index.ts) -/

/-- Analysis result as the orchestrator consumes it, with structured
data. -/
structure AnalysisResultS where
  success : Bool
  data : Option AnalysisData
  error : Option String
  rawOutput : Option String

/-- Model of `parseRawOutput`: a minimal `AnalysisData` with the five
conventional categories, all empty except `codePatterns`, into which the
whole raw text is pushed as a single rule. -/
def parseRawOutput (rawOutput : String) : Option AnalysisData :=
  some
    [("codePatterns",
      some { title := "Code Patterns & Style",
             description := some "Extracted from raw output",
             rules := [{ name := "Analysis Output", description := rawOutput }] }),
     ("frameworks",
      some { title := "Frameworks & Libraries",
             description := some "Extracted from raw output", rules := [] }),
     ("structure",
      some { title := "Project Structure",
             description := some "Extracted from raw output", rules := [] }),
     ("conventions",
      some { title := "Coding Conventions",
             description := some "Extracted from raw output", rules := [] }),
     ("bestPractices",
      some { title := "Best Practices",
             description := some "Extracted from raw output", rules := [] })]

/-- The fallback step of `generateRules`: when the invoker failed but
raw output exists (JavaScript truthiness: a non-empty string), structure
the raw text and mark the analysis successful. -/
def fallbackStep (r : AnalysisResultS) : AnalysisResultS :=
  if r.success then r
  else
    match r.rawOutput with
    | some raw =>
      if raw = "" then r
      else
        match parseRawOutput raw with
        | some d => { r with data := some d, success := true }
        | none => r
    | none => r

/-! ## Pure description of one synchronization pass

The following definitions restate the outcome of `processCats`,
`summaryStep` and the cleanup pass as pure functions of the pass-start
snapshot; the lemmas below prove that the effectful definitions compute
exactly these values.  They exist only to structure the proofs. -/

/-- Per-category classification outcome. -/
inductive COut where
  | createdO
  | updatedO
  | unchangedO
deriving DecidableEq

/-- How one non-skipped category is classified against the snapshot. -/
def catStep (existing : List ExistingRuleFile) (k : String)
    (cat : RuleCategory) : COut :=
  match existing.find? (fun r => sLower r.filename = sLower (generateFilename k)) with
  | some ef =>
    if needsUpdate ef.content (convertToMDC k cat) then .updatedO else .unchangedO
  | none => .createdO

/-- Filenames of the categories classified `created`, in order. -/
def createdOf (existing : List ExistingRuleFile)
    (entries : List (String × Option RuleCategory)) : List String :=
  entries.filterMap (fun e =>
    match e.2 with
    | some cat =>
      if cat.rules.isEmpty then none
      else if catStep existing e.1 cat = .createdO then some (generateFilename e.1)
      else none
    | none => none)

/-- Filenames of the categories classified `updated`, in order. -/
def updatedOf (existing : List ExistingRuleFile)
    (entries : List (String × Option RuleCategory)) : List String :=
  entries.filterMap (fun e =>
    match e.2 with
    | some cat =>
      if cat.rules.isEmpty then none
      else if catStep existing e.1 cat = .updatedO then some (generateFilename e.1)
      else none
    | none => none)

/-- Filenames of the categories classified `unchanged`, in order. -/
def unchangedOf (existing : List ExistingRuleFile)
    (entries : List (String × Option RuleCategory)) : List String :=
  entries.filterMap (fun e =>
    match e.2 with
    | some cat =>
      if cat.rules.isEmpty then none
      else if catStep existing e.1 cat = .unchangedO then some (generateFilename e.1)
      else none
    | none => none)

/-- The files the category loop writes (name and rendered content), in
write order: one per created or updated category. -/
def catWrites (existing : List ExistingRuleFile)
    (entries : List (String × Option RuleCategory)) : List (String × String) :=
  entries.filterMap (fun e =>
    match e.2 with
    | some cat =>
      if cat.rules.isEmpty then none
      else if catStep existing e.1 cat = .unchangedO then none
      else some (generateFilename e.1, convertToMDC e.1 cat)
    | none => none)

/-- Derived filenames of the non-skipped categories, in order. -/
def processedFilenames (entries : List (String × Option RuleCategory)) :
    List String :=
  entries.filterMap (fun e =>
    match e.2 with
    | some cat =>
      if cat.rules.isEmpty then none else some (generateFilename e.1)
    | none => none)

/-- Apply a sequence of in-place-or-append writes to the file system. -/
def applyUpserts (fs : FS) (ws : List (String × String)) : FS :=
  match ws with
  | [] => fs
  | (n, c) :: rest => applyUpserts { fs with files := upsert fs.files n c } rest

/-- Result record after the category loop, as a pure function. -/
def classifyCats (existing : List ExistingRuleFile)
    (entries : List (String × Option RuleCategory))
    (res : RulesManagerResult) : RulesManagerResult :=
  { res with
    created := res.created ++ createdOf existing entries,
    updated := res.updated ++ updatedOf existing entries,
    unchanged := res.unchanged ++ unchangedOf existing entries }

/-- Result record after the summary step, as a pure function. -/
def summaryOutcome (analysisData : AnalysisData) (now : String)
    (existing : List ExistingRuleFile) (existingLower : List String)
    (res : RulesManagerResult) : RulesManagerResult :=
  if !(existingLower.contains (sLower summaryFilename)) then
    { res with created := res.created ++ [summaryFilename] }
  else
    match existing.find? (fun r => sLower r.filename = sLower summaryFilename) with
    | some existingFile =>
      if needsUpdate existingFile.content (createSummary analysisData now) then
        { res with updated := res.updated ++ [summaryFilename] }
      else if res.unchanged.contains summaryFilename then res
      else { res with unchanged := res.unchanged ++ [summaryFilename] }
    | none =>
      if res.unchanged.contains summaryFilename then res
      else { res with unchanged := res.unchanged ++ [summaryFilename] }

/-- The write the summary step performs, if any. -/
def summaryWrites (analysisData : AnalysisData) (now : String)
    (existing : List ExistingRuleFile) (existingLower : List String) :
    List (String × String) :=
  if !(existingLower.contains (sLower summaryFilename)) then
    [(summaryFilename, createSummary analysisData now)]
  else
    match existing.find? (fun r => sLower r.filename = sLower summaryFilename) with
    | some existingFile =>
      if needsUpdate existingFile.content (createSummary analysisData now) then
        [(summaryFilename, createSummary analysisData now)]
      else []
    | none => []

/-- The snapshot a non-dry pass reads. -/
def passSnapshot (fs0 : FS) : List ExistingRuleFile :=
  readExistingRules (fsEnsureDir fs0)

/-- The lowercased snapshot filenames. -/
def passSnapshotLower (fs0 : FS) : List String :=
  (passSnapshot fs0).map (fun r => sLower r.filename)

/-- The result record a successful non-dry pass returns. -/
def passRes (d : AnalysisData) (now : String) (fs0 : FS) : RulesManagerResult :=
  summaryOutcome d now (passSnapshot fs0) (passSnapshotLower fs0)
    (classifyCats (passSnapshot fs0) d ⟨true, [], [], [], none⟩)

/-- The writes a successful non-dry pass performs. -/
def passWrites (d : AnalysisData) (now : String) (fs0 : FS) : List (String × String) :=
  catWrites (passSnapshot fs0) d ++
    summaryWrites d now (passSnapshot fs0) (passSnapshotLower fs0)

/-- The lowercased keep names of a successful non-dry pass. -/
def passKeepLower (d : AnalysisData) (now : String) (fs0 : FS) : List String :=
  ((passRes d now fs0).created ++ (passRes d now fs0).updated ++
    (passRes d now fs0).unchanged).map sLower

/-- The file system a successful non-dry pass leaves behind. -/
def passFS (d : AnalysisData) (now : String) (fs0 : FS) : FS :=
  { applyUpserts (fsEnsureDir fs0) (passWrites d now fs0) with
    files := (applyUpserts (fsEnsureDir fs0) (passWrites d now fs0)).files.filter
      (fun p => !(staleName (passKeepLower d now fs0) p.1)) }

/-- The alwaysApply priority exactly as claim C7 words it: an explicit
`alwaysApply` value is used; otherwise `ruleType = always` forces true;
otherwise the flag is true exactly when the category key is
`bestPractices` or `conventions`. -/
def claimAlwaysApplyPolicy (key : String) (cat : RuleCategory) : Bool :=
  if h : cat.alwaysApply.isSome then cat.alwaysApply.get h
  else if cat.ruleType = some RuleType.always then true
  else if key = "bestPractices" then true
  else if key = "conventions" then true
  else false

/-! ## Helper lemmas -/

theorem applyUpserts_broken (ws : List (String × String)) :
    ∀ fs : FS, (applyUpserts fs ws).broken = fs.broken := by
  induction ws with
  | nil => intro fs; rfl
  | cons w rest ih => intro fs; obtain ⟨n, c⟩ := w; exact ih _

theorem applyUpserts_dirExists (ws : List (String × String)) :
    ∀ fs : FS, (applyUpserts fs ws).dirExists = fs.dirExists := by
  induction ws with
  | nil => intro fs; rfl
  | cons w rest ih => intro fs; obtain ⟨n, c⟩ := w; exact ih _

theorem classifyCats_nil (existing : List ExistingRuleFile)
    (res : RulesManagerResult) : classifyCats existing [] res = res := by
  simp [classifyCats, createdOf, updatedOf, unchangedOf]

/-- Push one skipped entry through `classifyCats`. -/
theorem classifyCats_cons_skip (existing : List ExistingRuleFile)
    (k : String) (c : Option RuleCategory) (rest : List (String × Option RuleCategory))
    (res : RulesManagerResult) (h : catSkipped c = true) :
    classifyCats existing ((k, c) :: rest) res = classifyCats existing rest res := by
  cases c with
  | none => simp [classifyCats, createdOf, updatedOf, unchangedOf, List.filterMap_cons]
  | some cat =>
    simp only [catSkipped, List.isEmpty_iff] at h
    simp [classifyCats, createdOf, updatedOf, unchangedOf, List.filterMap_cons, h]

/-- Push one processed entry through `classifyCats`, by its outcome. -/
theorem classifyCats_cons_step (existing : List ExistingRuleFile)
    (k : String) (cat : RuleCategory) (rest : List (String × Option RuleCategory))
    (res : RulesManagerResult) (h : cat.rules.isEmpty = false) :
    classifyCats existing ((k, some cat) :: rest) res =
      classifyCats existing rest
        (match catStep existing k cat with
         | .createdO => { res with created := res.created ++ [generateFilename k] }
         | .updatedO => { res with updated := res.updated ++ [generateFilename k] }
         | .unchangedO => { res with unchanged := res.unchanged ++ [generateFilename k] }) := by
  have h' : ¬(cat.rules = []) := by simpa [List.isEmpty_eq_false] using h
  cases hs : catStep existing k cat <;>
    simp [classifyCats, createdOf, updatedOf, unchangedOf, List.filterMap_cons, h', hs,
      List.append_assoc]

/-- Push one skipped entry through `catWrites`. -/
theorem catWrites_cons_skip (existing : List ExistingRuleFile)
    (k : String) (c : Option RuleCategory)
    (rest : List (String × Option RuleCategory)) (h : catSkipped c = true) :
    catWrites existing ((k, c) :: rest) = catWrites existing rest := by
  cases c with
  | none => simp [catWrites, List.filterMap_cons]
  | some cat =>
    simp only [catSkipped, List.isEmpty_iff] at h
    simp [catWrites, List.filterMap_cons, h]

/-- Push one processed entry through `catWrites`, by its outcome. -/
theorem catWrites_cons_step (existing : List ExistingRuleFile)
    (k : String) (cat : RuleCategory) (rest : List (String × Option RuleCategory))
    (h : cat.rules.isEmpty = false) :
    catWrites existing ((k, some cat) :: rest) =
      (match catStep existing k cat with
       | .unchangedO => catWrites existing rest
       | _ => (generateFilename k, convertToMDC k cat) :: catWrites existing rest) := by
  have h' : ¬(cat.rules = []) := by simpa [List.isEmpty_eq_false] using h
  cases hs : catStep existing k cat <;>
    simp [catWrites, List.filterMap_cons, h', hs]

/-- The dry-run category loop performs no write and returns the pure
classification. -/
theorem processCats_dry (existing : List ExistingRuleFile) :
    ∀ (entries : List (String × Option RuleCategory)) (res : RulesManagerResult)
      (fs : FS),
    processCats existing true entries res fs =
      .ok (classifyCats existing entries res, fs) := by
  intro entries
  induction entries with
  | nil => intro res fs; simp [processCats, classifyCats_nil]
  | cons e rest ih =>
    intro res fs
    obtain ⟨k, c⟩ := e
    cases c with
    | none =>
      rw [classifyCats_cons_skip existing k none rest res rfl]
      simpa [processCats] using ih res fs
    | some cat =>
      by_cases he : cat.rules.isEmpty
      · rw [classifyCats_cons_skip existing k (some cat) rest res he]
        simp only [processCats, he, if_true]
        exact ih res fs
      · rw [classifyCats_cons_step existing k cat rest res (by simpa using he)]
        cases hf : existing.find? (fun r => sLower r.filename = sLower (generateFilename k)) with
        | some ef =>
          by_cases hn : needsUpdate ef.content (convertToMDC k cat)
          · have hs : catStep existing k cat = .updatedO := by simp [catStep, hf, hn]
            simp only [processCats, he, if_false, hf, hn, if_true, hs]
            exact ih _ fs
          · have hs : catStep existing k cat = .unchangedO := by
              simp [catStep, hf, hn]
            simp only [processCats, he, if_false, hf, hs]
            rw [if_neg hn]
            exact ih _ fs
        | none =>
          have hs : catStep existing k cat = .createdO := by simp [catStep, hf]
          simp only [processCats, he, if_false, hf, hs]
          exact ih _ fs

/-- With no broken path and an existing directory, the category loop
succeeds, returns the pure classification and applies exactly the pure
write list. -/
theorem processCats_wet (existing : List ExistingRuleFile) :
    ∀ (entries : List (String × Option RuleCategory)) (res : RulesManagerResult)
      (fs : FS), fs.broken = [] → fs.dirExists = true →
    processCats existing false entries res fs =
      .ok (classifyCats existing entries res,
           applyUpserts fs (catWrites existing entries)) := by
  intro entries
  induction entries with
  | nil => intro res fs hb hd; simp [processCats, classifyCats_nil, catWrites, applyUpserts]
  | cons e rest ih =>
    intro res fs hb hd
    obtain ⟨k, c⟩ := e
    cases c with
    | none =>
      rw [classifyCats_cons_skip existing k none rest res rfl]
      simpa [processCats, catWrites, List.filterMap_cons] using ih res fs hb hd
    | some cat =>
      by_cases he : cat.rules.isEmpty
      · rw [classifyCats_cons_skip existing k (some cat) rest res he,
          catWrites_cons_skip existing k (some cat) rest he]
        simp only [processCats, he, if_true]
        exact ih res fs hb hd
      · have hwrite : fsWriteFile fs (generateFilename k) (convertToMDC k cat) =
            .ok { fs with files := upsert fs.files (generateFilename k) (convertToMDC k cat) } := by
          simp [fsWriteFile, hb, hd]
        have hb2 : ({ fs with files := upsert fs.files (generateFilename k) (convertToMDC k cat) } : FS).broken = [] := hb
        have hd2 : ({ fs with files := upsert fs.files (generateFilename k) (convertToMDC k cat) } : FS).dirExists = true := hd
        rw [classifyCats_cons_step existing k cat rest res (by simpa using he),
          catWrites_cons_step existing k cat rest (by simpa using he)]
        cases hf : existing.find? (fun r => sLower r.filename = sLower (generateFilename k)) with
        | some ef =>
          by_cases hn : needsUpdate ef.content (convertToMDC k cat)
          · have hs : catStep existing k cat = .updatedO := by simp [catStep, hf, hn]
            simp only [processCats, he, Bool.false_eq_true, if_false, hf, hn, if_true, hs, hwrite]
            rw [ih _ _ hb2 hd2]
            rfl
          · have hs : catStep existing k cat = .unchangedO := by simp [catStep, hf, hn]
            simp only [processCats, he, Bool.false_eq_true, if_false, hf, hs]
            rw [if_neg hn, ih _ fs hb hd]
        | none =>
          have hs : catStep existing k cat = .createdO := by simp [catStep, hf]
          simp only [processCats, he, Bool.false_eq_true, if_false, hf, hs, hwrite]
          rw [ih _ _ hb2 hd2]
          rfl

/-- The dry-run summary step performs no write. -/
theorem summaryStep_dry (analysisData : AnalysisData) (now : String)
    (existing : List ExistingRuleFile) (existingLower : List String)
    (res : RulesManagerResult) (fs : FS) :
    summaryStep analysisData now existing existingLower true res fs =
      .ok (summaryOutcome analysisData now existing existingLower res, fs) := by
  simp only [summaryStep, summaryOutcome]
  by_cases hc : existingLower.contains (sLower summaryFilename)
  · simp only [hc, Bool.not_true, Bool.false_eq_true, if_false]
    cases hf : existing.find? (fun r => sLower r.filename = sLower summaryFilename) with
    | some ef =>
      by_cases hn : needsUpdate ef.content (createSummary analysisData now)
      · simp [hn]
      · simp only [hn, Bool.false_eq_true, if_false]
        split <;> rfl
    | none =>
      simp only []
      split <;> rfl
  · have hc2 : existingLower.contains (sLower summaryFilename) = false := by
      simpa using hc
    simp only [hc2, Bool.not_false, if_true]

/-- With no broken path and an existing directory, the summary step
succeeds and applies exactly the pure summary write. -/
theorem summaryStep_wet (analysisData : AnalysisData) (now : String)
    (existing : List ExistingRuleFile) (existingLower : List String)
    (res : RulesManagerResult) (fs : FS) (hb : fs.broken = [])
    (hd : fs.dirExists = true) :
    summaryStep analysisData now existing existingLower false res fs =
      .ok (summaryOutcome analysisData now existing existingLower res,
           applyUpserts fs (summaryWrites analysisData now existing existingLower)) := by
  have hwrite : fsWriteFile fs summaryFilename (createSummary analysisData now) =
      .ok { fs with files := upsert fs.files summaryFilename (createSummary analysisData now) } := by
    simp [fsWriteFile, hb, hd]
  simp only [summaryStep, summaryOutcome, summaryWrites]
  by_cases hc : existingLower.contains (sLower summaryFilename)
  · simp only [hc, Bool.not_true, Bool.false_eq_true, if_false]
    cases hf : existing.find? (fun r => sLower r.filename = sLower summaryFilename) with
    | some ef =>
      by_cases hn : needsUpdate ef.content (createSummary analysisData now)
      · simp [hn, hwrite, applyUpserts]
      · simp only [hn, Bool.false_eq_true, if_false, applyUpserts]
        split <;> rfl
    | none =>
      simp only [applyUpserts]
      split <;> rfl
  · have hc2 : existingLower.contains (sLower summaryFilename) = false := by
      simpa using hc
    simp only [hc2, Bool.not_false, if_true, Bool.false_eq_true, if_false, hwrite,
      applyUpserts]

/-- The dry-run deletion loop removes nothing. -/
theorem cleanupLoop_dry (keepLower : List String) :
    ∀ (names : List String) (fs : FS),
    cleanupLoop keepLower true names fs =
      .ok (names.filter (staleName keepLower), fs) := by
  intro names
  induction names with
  | nil => intro fs; simp [cleanupLoop]
  | cons n rest ih =>
    intro fs
    by_cases h : staleName keepLower n
    · simp [cleanupLoop, h, ih fs, List.filter_cons]
    · simp [cleanupLoop, h, ih fs, List.filter_cons]

/-- With no broken path, the deletion loop removes exactly the stale
names of its snapshot and filters them out of the directory. -/
theorem cleanupLoop_wet (keepLower : List String) :
    ∀ (names : List String) (fs : FS), fs.broken = [] →
    cleanupLoop keepLower false names fs =
      .ok (names.filter (staleName keepLower),
           { fs with
             files := fs.files.filter
               (fun p => !(staleName keepLower p.1 && names.contains p.1)) }) := by
  intro names
  induction names with
  | nil =>
    intro fs hb
    simp [cleanupLoop]
  | cons n rest ih =>
    intro fs hb
    by_cases h : staleName keepLower n
    · have hu : fsUnlink fs n =
          .ok { fs with files := fs.files.filter (fun p => p.1 ≠ n) } := by
        simp [fsUnlink, hb]
      have hb2 : ({ fs with files := fs.files.filter (fun p => p.1 ≠ n) } : FS).broken = [] := hb
      simp only [cleanupLoop, h, if_true, Bool.false_eq_true, if_false, hu, ih _ hb2,
        Except.ok.injEq, Prod.mk.injEq]
      refine ⟨?_, ?_⟩
      · simp [List.filter_cons, h]
      · simp only [List.filter_filter, FS.mk.injEq]
        refine ⟨trivial, ?_, trivial⟩
        refine List.filter_congr ?_
        intro p hp
        by_cases hpn : p.1 = n
        · simp [hpn, h, List.contains_cons]
        · have hbe : (p.1 == n) = false := beq_eq_false_iff_ne.mpr hpn
          simp [List.contains_cons, hbe, hpn]
    · have h2 : staleName keepLower n = false := by simpa using h
      simp only [cleanupLoop, h2, Bool.false_eq_true, if_false, ih _ hb,
        Except.ok.injEq, Prod.mk.injEq]
      refine ⟨?_, ?_⟩
      · simp [List.filter_cons, h2]
      · simp only [FS.mk.injEq]
        refine ⟨trivial, ?_, trivial⟩
        refine List.filter_congr ?_
        intro p hp
        by_cases hpn : p.1 = n
        · simp [hpn, h2, List.contains_cons]
        · have hbe : (p.1 == n) = false := beq_eq_false_iff_ne.mpr hpn
          simp [List.contains_cons, hbe, hpn]

theorem charToLower_idem (c : Char) :
    Char.toLower (Char.toLower c) = Char.toLower c := by
  unfold Char.toLower
  by_cases h : c.toNat ≥ 65 ∧ c.toNat ≤ 90
  · rw [if_pos h]
    have hval : (c.toNat + 32).isValidChar := Or.inl (by omega)
    have hofn : Char.ofNat (c.toNat + 32) = Char.ofNatAux (c.toNat + 32) hval := by
      rw [Char.ofNat, dif_pos hval]
    have ht : (Char.ofNatAux (c.toNat + 32) hval).toNat = c.toNat + 32 := rfl
    rw [hofn, if_neg]
    rw [ht]
    omega
  · rw [if_neg h, if_neg h]

/-- Every character of the whitespace-collapsed list is the replacement
character or a character of the original list. -/
theorem mem_collapseWsWith (r : Char) :
    ∀ (l : List Char) (c : Char), c ∈ collapseWsWith r l → c = r ∨ c ∈ l := by
  have hgo : ∀ (l : List Char) (b : Bool) (c : Char),
      c ∈ collapseWsGo r b l → c = r ∨ c ∈ l := by
    intro l
    induction l with
    | nil => intro b c hc; simp [collapseWsGo] at hc
    | cons d ds ih =>
      intro b c hc
      simp only [collapseWsGo] at hc
      by_cases hw : isJsWsChar d
      · rw [if_pos hw] at hc
        cases b with
        | true =>
          rw [if_pos rfl] at hc
          rcases ih true c hc with h | h
          · exact Or.inl h
          · exact Or.inr (List.mem_cons_of_mem d h)
        | false =>
          rw [if_neg (by simp)] at hc
          rcases List.mem_cons.mp hc with h | h
          · exact Or.inl h
          · rcases ih true c h with h2 | h2
            · exact Or.inl h2
            · exact Or.inr (List.mem_cons_of_mem d h2)
      · rw [if_neg hw] at hc
        rcases List.mem_cons.mp hc with h | h
        · exact Or.inr (by rw [h]; exact List.mem_cons_self d ds)
        · rcases ih false c h with h2 | h2
          · exact Or.inl h2
          · exact Or.inr (List.mem_cons_of_mem d h2)
  intro l c hc
  exact hgo l false c hc

/-- Derived filenames are already lowercase. -/
theorem sLower_generateFilename (k : String) :
    sLower (generateFilename k) = generateFilename k := by
  have h1 : ∀ c ∈ collapseWsWith '-' (sLower k).toList, Char.toLower c = c := by
    intro c hc
    rcases mem_collapseWsWith '-' _ c hc with h | h
    · rw [h]; decide
    · simp only [sLower] at h
      obtain ⟨c0, hc0, hc1⟩ := List.mem_map.mp h
      rw [← hc1]
      exact charToLower_idem c0
  show String.mk ((String.mk (collapseWsWith '-' (sLower k).toList) ++ ".mdc").toList.map Char.toLower) = _
  have h2 : (String.mk (collapseWsWith '-' (sLower k).toList) ++ ".mdc").toList =
      collapseWsWith '-' (sLower k).toList ++ ".mdc".toList := rfl
  rw [h2, List.map_append]
  have h3 : (collapseWsWith '-' (sLower k).toList).map Char.toLower =
      collapseWsWith '-' (sLower k).toList :=
    (List.map_congr_left h1).trans (List.map_id _)
  have h4 : ".mdc".toList.map Char.toLower = ".mdc".toList := by decide
  rw [h3, h4]
  rfl

/-- Derived filenames carry the `.mdc` extension, which is recognized. -/
theorem recognizedExt_generateFilename (k : String) :
    recognizedExt (generateFilename k) = true := by
  have h : ".mdc".toList.isSuffixOf (generateFilename k).toList = true := by
    rw [List.isSuffixOf_iff_suffix]
    show ".mdc".toList <:+ (String.mk (collapseWsWith '-' (sLower k).toList) ++ ".mdc").toList
    exact ⟨collapseWsWith '-' (sLower k).toList, rfl⟩
  simp only [recognizedExt, h, Bool.true_or]

/-- A derived filename is never the summary document (in either case
form): its last character is `c`, not `d`. -/
theorem generateFilename_ne_readme (k : String) :
    generateFilename k ≠ "readme.md" ∧ generateFilename k ≠ "README.md" := by
  constructor
  · intro h
    have h2 := congrArg (fun s : String => s.toList.reverse.head?) h
    have h3 : (generateFilename k).toList.reverse.head? = some 'c' := by
      show ((String.mk (collapseWsWith '-' (sLower k).toList) ++ ".mdc").toList).reverse.head? = some 'c'
      have : (String.mk (collapseWsWith '-' (sLower k).toList) ++ ".mdc").toList =
          collapseWsWith '-' (sLower k).toList ++ ".mdc".toList := rfl
      rw [this, List.reverse_append]
      rfl
    simp only [h3] at h2
    simp at h2
  · intro h
    have h2 := congrArg (fun s : String => s.toList.reverse.head?) h
    have h3 : (generateFilename k).toList.reverse.head? = some 'c' := by
      show ((String.mk (collapseWsWith '-' (sLower k).toList) ++ ".mdc").toList).reverse.head? = some 'c'
      have : (String.mk (collapseWsWith '-' (sLower k).toList) ++ ".mdc").toList =
          collapseWsWith '-' (sLower k).toList ++ ".mdc".toList := rfl
      rw [this, List.reverse_append]
      rfl
    simp only [h3] at h2
    simp at h2

theorem mem_upsert_weak :
    ∀ (l : List (String × String)) (n c m x : String),
    (m, x) ∈ upsert l n c → (m = n ∧ x = c) ∨ (m, x) ∈ l := by
  intro l
  induction l with
  | nil =>
    intro n c m x h
    simp only [upsert, List.mem_singleton, Prod.mk.injEq] at h
    exact Or.inl h
  | cons e rest ih =>
    intro n c m x h
    obtain ⟨en, ex⟩ := e
    simp only [upsert] at h
    by_cases hen : en = n
    · rw [if_pos hen] at h
      rcases List.mem_cons.mp h with h2 | h2
      · simp only [Prod.mk.injEq] at h2
        exact Or.inl ⟨h2.1.trans hen, h2.2⟩
      · exact Or.inr (List.mem_cons_of_mem _ h2)
    · rw [if_neg hen] at h
      rcases List.mem_cons.mp h with h2 | h2
      · exact Or.inr (List.mem_cons.mpr (Or.inl h2))
      · rcases ih n c m x h2 with h3 | h3
        · exact Or.inl h3
        · exact Or.inr (List.mem_cons_of_mem _ h3)

theorem mem_upsert_self :
    ∀ (l : List (String × String)) (n c : String), (n, c) ∈ upsert l n c := by
  intro l
  induction l with
  | nil => intro n c; simp [upsert]
  | cons e rest ih =>
    intro n c
    obtain ⟨en, ex⟩ := e
    simp only [upsert]
    by_cases hen : en = n
    · rw [if_pos hen, hen]
      exact List.mem_cons_self _ _
    · rw [if_neg hen]
      exact List.mem_cons_of_mem _ (ih n c)

theorem mem_upsert_of_ne :
    ∀ (l : List (String × String)) (n c m x : String), m ≠ n →
    ((m, x) ∈ upsert l n c ↔ (m, x) ∈ l) := by
  intro l
  induction l with
  | nil =>
    intro n c m x hmn
    simp only [upsert, List.mem_singleton, Prod.mk.injEq]
    constructor
    · rintro ⟨h1, h2⟩; exact absurd h1 hmn
    · intro h; simp at h
  | cons e rest ih =>
    intro n c m x hmn
    obtain ⟨en, ex⟩ := e
    simp only [upsert]
    by_cases hen : en = n
    · rw [if_pos hen]
      constructor
      · intro h
        rcases List.mem_cons.mp h with h2 | h2
        · simp only [Prod.mk.injEq] at h2
          exact absurd (h2.1.trans hen) hmn
        · exact List.mem_cons_of_mem _ h2
      · intro h
        rcases List.mem_cons.mp h with h2 | h2
        · simp only [Prod.mk.injEq] at h2
          exact absurd (h2.1.trans hen) hmn
        · exact List.mem_cons_of_mem _ h2
    · rw [if_neg hen]
      constructor
      · intro h
        rcases List.mem_cons.mp h with h2 | h2
        · exact List.mem_cons.mpr (Or.inl h2)
        · exact List.mem_cons_of_mem _ ((ih n c m x hmn).mp h2)
      · intro h
        rcases List.mem_cons.mp h with h2 | h2
        · exact List.mem_cons.mpr (Or.inl h2)
        · exact List.mem_cons_of_mem _ ((ih n c m x hmn).mpr h2)

theorem mem_names_upsert :
    ∀ (l : List (String × String)) (n c : String) (a : String),
    a ∈ (upsert l n c).map Prod.fst → a ∈ l.map Prod.fst ∨ a = n := by
  intro l n c a h
  obtain ⟨p, hp, hpa⟩ := List.mem_map.mp h
  obtain ⟨m, x⟩ := p
  rcases mem_upsert_weak l n c m x hp with h2 | h2
  · right; rw [← hpa]; exact h2.1
  · left; rw [← hpa]; exact List.mem_map_of_mem Prod.fst h2

theorem nodup_upsert :
    ∀ (l : List (String × String)) (n c : String),
    (l.map Prod.fst).Nodup → ((upsert l n c).map Prod.fst).Nodup := by
  intro l
  induction l with
  | nil => intro n c _; simp [upsert]
  | cons e rest ih =>
    intro n c hn
    obtain ⟨en, ex⟩ := e
    simp only [List.map_cons, List.nodup_cons] at hn
    simp only [upsert]
    by_cases hen : en = n
    · rw [if_pos hen]
      simp only [List.map_cons, List.nodup_cons]
      exact hn
    · rw [if_neg hen]
      simp only [List.map_cons, List.nodup_cons]
      refine ⟨?_, ih n c hn.2⟩
      intro hmem
      rcases mem_names_upsert rest n c en hmem with h2 | h2
      · exact hn.1 h2
      · exact hen h2

theorem assoc_nodup_unique :
    ∀ (l : List (String × String)) (n a b : String),
    (l.map Prod.fst).Nodup → (n, a) ∈ l → (n, b) ∈ l → a = b := by
  intro l
  induction l with
  | nil => intro n a b _ ha; simp at ha
  | cons e rest ih =>
    intro n a b hn ha hb
    obtain ⟨en, ex⟩ := e
    simp only [List.map_cons, List.nodup_cons] at hn
    rcases List.mem_cons.mp ha with h1 | h1 <;> rcases List.mem_cons.mp hb with h2 | h2
    · simp only [Prod.mk.injEq] at h1 h2
      exact h1.2.trans h2.2.symm
    · simp only [Prod.mk.injEq] at h1
      exact absurd (h1.1 ▸ List.mem_map_of_mem Prod.fst h2) hn.1
    · simp only [Prod.mk.injEq] at h2
      exact absurd (h2.1 ▸ List.mem_map_of_mem Prod.fst h1) hn.1
    · exact ih n a b hn.2 h1 h2

theorem applyUpserts_mem_elim (ws : List (String × String)) :
    ∀ (fs : FS) (m x : String),
    (m, x) ∈ (applyUpserts fs ws).files → (m, x) ∈ fs.files ∨ (m, x) ∈ ws := by
  induction ws with
  | nil => intro fs m x h; exact Or.inl h
  | cons w rest ih =>
    intro fs m x h
    obtain ⟨n, c⟩ := w
    rcases ih _ m x h with h2 | h2
    · rcases mem_upsert_weak fs.files n c m x h2 with h3 | h3
      · right
        rw [h3.1, h3.2]
        exact List.mem_cons_self _ _
      · exact Or.inl h3
    · exact Or.inr (List.mem_cons_of_mem _ h2)

theorem applyUpserts_mem_frame (ws : List (String × String)) :
    ∀ (fs : FS) (m x : String), (m, x) ∈ fs.files → m ∉ ws.map Prod.fst →
    (m, x) ∈ (applyUpserts fs ws).files := by
  induction ws with
  | nil => intro fs m x h _; exact h
  | cons w rest ih =>
    intro fs m x h hnm
    obtain ⟨n, c⟩ := w
    simp only [List.map_cons, List.mem_cons] at hnm
    push_neg at hnm
    refine ih _ m x ?_ (by simpa using hnm.2)
    exact (mem_upsert_of_ne fs.files n c m x hnm.1).mpr h

theorem applyUpserts_mem_write (ws : List (String × String)) :
    ∀ (fs : FS) (n c : String), (ws.map Prod.fst).Nodup → (n, c) ∈ ws →
    (n, c) ∈ (applyUpserts fs ws).files := by
  induction ws with
  | nil => intro fs n c _ h; simp at h
  | cons w rest ih =>
    intro fs n c hnd h
    obtain ⟨wn, wc⟩ := w
    simp only [List.map_cons, List.nodup_cons] at hnd
    rcases List.mem_cons.mp h with h2 | h2
    · simp only [Prod.mk.injEq] at h2
      rw [h2.1, h2.2]
      exact applyUpserts_mem_frame rest _ wn wc (mem_upsert_self fs.files wn wc)
        (by rw [← h2.1]; rw [h2.1]; exact hnd.1)
    · exact ih _ n c hnd.2 h2

theorem applyUpserts_nodup (ws : List (String × String)) :
    ∀ fs : FS, (fs.files.map Prod.fst).Nodup →
    ((applyUpserts fs ws).files.map Prod.fst).Nodup := by
  induction ws with
  | nil => intro fs h; exact h
  | cons w rest ih =>
    intro fs h
    obtain ⟨n, c⟩ := w
    exact ih _ (nodup_upsert fs.files n c h)

/-- Uniqueness of the source entry of a filterMap value under a Nodup
result. -/
theorem filterMap_nodup_unique {α β : Type} (f : α → Option β) :
    ∀ (l : List α) (a b : α) (x : β), (l.filterMap f).Nodup →
    a ∈ l → f a = some x → b ∈ l → f b = some x → a = b := by
  intro l
  induction l with
  | nil => intro a b x _ ha; simp at ha
  | cons e rest ih =>
    intro a b x hn ha hfa hb hfb
    cases hfe : f e with
    | none =>
      rw [List.filterMap_cons_none hfe] at hn
      rcases List.mem_cons.mp ha with h1 | h1 <;> rcases List.mem_cons.mp hb with h2 | h2
      · rw [h1, h2]
      · rw [h1] at hfa; rw [hfa] at hfe; cases hfe
      · rw [h2] at hfb; rw [hfb] at hfe; cases hfe
      · exact ih a b x hn h1 hfa h2 hfb
    | some y =>
      rw [List.filterMap_cons_some hfe] at hn
      simp only [List.nodup_cons] at hn
      rcases List.mem_cons.mp ha with h1 | h1 <;> rcases List.mem_cons.mp hb with h2 | h2
      · rw [h1, h2]
      · exfalso
        apply hn.1
        rw [h1] at hfa
        rw [hfa] at hfe
        injection hfe with hxy
        rw [← hxy]
        exact List.mem_filterMap.mpr ⟨b, h2, hfb⟩
      · exfalso
        apply hn.1
        rw [h2] at hfb
        rw [hfb] at hfe
        injection hfe with hxy
        rw [← hxy]
        exact List.mem_filterMap.mpr ⟨a, h1, hfa⟩
      · exact ih a b x hn.2 h1 hfa h2 hfb

theorem fsEnsureDir_broken (fs : FS) : (fsEnsureDir fs).broken = fs.broken := by
  by_cases hd : fs.dirExists <;> simp [fsEnsureDir, hd]

theorem fsEnsureDir_dirExists (fs : FS) : (fsEnsureDir fs).dirExists = true := by
  by_cases hd : fs.dirExists <;> simp [fsEnsureDir, hd]

theorem applyUpserts_append (w1 w2 : List (String × String)) :
    ∀ fs : FS, applyUpserts fs (w1 ++ w2) = applyUpserts (applyUpserts fs w1) w2 := by
  induction w1 with
  | nil => intro fs; rfl
  | cons w rest ih =>
    intro fs
    obtain ⟨n, c⟩ := w
    exact ih { fs with files := upsert fs.files n c }

/-- The dry-run cleanup pass touches nothing. -/
theorem cleanupOldRules_dry (fs : FS) (keepFiles : List String) :
    cleanupOldRules fs keepFiles true =
      .ok ((if fs.dirExists then
              (fs.files.map Prod.fst).filter (staleName (keepFiles.map sLower))
            else []), fs) := by
  by_cases hd : fs.dirExists
  · simp [cleanupOldRules, hd, cleanupLoop_dry]
  · simp [cleanupOldRules, hd]

/-- With no broken path and an existing directory, the cleanup pass
deletes exactly the stale recognized files. -/
theorem cleanupOldRules_wet (fs : FS) (keepFiles : List String)
    (hb : fs.broken = []) (hd : fs.dirExists = true) :
    cleanupOldRules fs keepFiles false =
      .ok ((fs.files.map Prod.fst).filter (staleName (keepFiles.map sLower)),
           { fs with
             files := fs.files.filter
               (fun p => !(staleName (keepFiles.map sLower) p.1)) }) := by
  have hfiles : fs.files.filter
      (fun p => !(staleName (keepFiles.map sLower) p.1 &&
        (fs.files.map Prod.fst).contains p.1)) =
      fs.files.filter (fun p => !(staleName (keepFiles.map sLower) p.1)) := by
    refine List.filter_congr ?_
    intro p hp
    have hmem : (fs.files.map Prod.fst).contains p.1 = true :=
      List.elem_eq_true_of_mem (List.mem_map_of_mem Prod.fst hp)
    rw [hmem, Bool.and_true]
  simp only [cleanupOldRules, hd, Bool.not_true, Bool.false_eq_true, if_false]
  rw [cleanupLoop_wet _ _ _ hb]
  rw [hfiles]
  simp [hd]

/-- Dry-run synchronization returns the pure classification of the
snapshot and leaves the file system untouched. -/
theorem writeRules_dry (d : AnalysisData) (now : String) (fs0 : FS) :
    writeRules d true now fs0 =
      (summaryOutcome d now (readExistingRules fs0)
         ((readExistingRules fs0).map (fun r => sLower r.filename))
         (classifyCats (readExistingRules fs0) d ⟨true, [], [], [], none⟩),
       fs0) := by
  simp only [writeRules, if_true, processCats_dry, summaryStep_dry, cleanupOldRules_dry]

/-- Non-dry synchronization with no broken path returns the same pure
classification and applies the category writes, the summary write and
the cleanup filter. -/
theorem writeRules_wet (d : AnalysisData) (now : String) (fs0 : FS)
    (hb : fs0.broken = []) :
    writeRules d false now fs0 =
      (let E := readExistingRules (fsEnsureDir fs0)
       let EL := E.map (fun r => sLower r.filename)
       let res2 := summaryOutcome d now E EL (classifyCats E d ⟨true, [], [], [], none⟩)
       let wfs := applyUpserts (fsEnsureDir fs0) (catWrites E d ++ summaryWrites d now E EL)
       (res2,
        { wfs with
          files := wfs.files.filter
            (fun p => !(staleName
              ((res2.created ++ res2.updated ++ res2.unchanged).map sLower) p.1)) })) := by
  have hbe : (fsEnsureDir fs0).broken = [] := (fsEnsureDir_broken fs0).trans hb
  have hde : (fsEnsureDir fs0).dirExists = true := fsEnsureDir_dirExists fs0
  have h1 := processCats_wet (readExistingRules (fsEnsureDir fs0)) d
    ⟨true, [], [], [], none⟩ (fsEnsureDir fs0) hbe hde
  have hbA : (applyUpserts (fsEnsureDir fs0)
      (catWrites (readExistingRules (fsEnsureDir fs0)) d)).broken = [] :=
    (applyUpserts_broken _ _).trans hbe
  have hdA : (applyUpserts (fsEnsureDir fs0)
      (catWrites (readExistingRules (fsEnsureDir fs0)) d)).dirExists = true :=
    (applyUpserts_dirExists _ _).trans hde
  have h2 := summaryStep_wet d now (readExistingRules (fsEnsureDir fs0))
    ((readExistingRules (fsEnsureDir fs0)).map (fun r => sLower r.filename))
    (classifyCats (readExistingRules (fsEnsureDir fs0)) d ⟨true, [], [], [], none⟩)
    (applyUpserts (fsEnsureDir fs0) (catWrites (readExistingRules (fsEnsureDir fs0)) d))
    hbA hdA
  have hbB : (applyUpserts
      (applyUpserts (fsEnsureDir fs0) (catWrites (readExistingRules (fsEnsureDir fs0)) d))
      (summaryWrites d now (readExistingRules (fsEnsureDir fs0))
        ((readExistingRules (fsEnsureDir fs0)).map (fun r => sLower r.filename)))).broken = [] :=
    (applyUpserts_broken _ _).trans hbA
  have hdB : (applyUpserts
      (applyUpserts (fsEnsureDir fs0) (catWrites (readExistingRules (fsEnsureDir fs0)) d))
      (summaryWrites d now (readExistingRules (fsEnsureDir fs0))
        ((readExistingRules (fsEnsureDir fs0)).map (fun r => sLower r.filename)))).dirExists = true :=
    (applyUpserts_dirExists _ _).trans hdA
  have h3 := cleanupOldRules_wet
    (applyUpserts
      (applyUpserts (fsEnsureDir fs0) (catWrites (readExistingRules (fsEnsureDir fs0)) d))
      (summaryWrites d now (readExistingRules (fsEnsureDir fs0))
        ((readExistingRules (fsEnsureDir fs0)).map (fun r => sLower r.filename))))
    ((summaryOutcome d now (readExistingRules (fsEnsureDir fs0))
        ((readExistingRules (fsEnsureDir fs0)).map (fun r => sLower r.filename))
        (classifyCats (readExistingRules (fsEnsureDir fs0)) d ⟨true, [], [], [], none⟩)).created ++
      (summaryOutcome d now (readExistingRules (fsEnsureDir fs0))
        ((readExistingRules (fsEnsureDir fs0)).map (fun r => sLower r.filename))
        (classifyCats (readExistingRules (fsEnsureDir fs0)) d ⟨true, [], [], [], none⟩)).updated ++
      (summaryOutcome d now (readExistingRules (fsEnsureDir fs0))
        ((readExistingRules (fsEnsureDir fs0)).map (fun r => sLower r.filename))
        (classifyCats (readExistingRules (fsEnsureDir fs0)) d ⟨true, [], [], [], none⟩)).unchanged)
    hbB hdB
  simp only [writeRules, Bool.false_eq_true, if_false, h1, h2, h3,
    applyUpserts_append]

/-- Whatever the category loop returns, the success flag is the one it
started with. -/
theorem processCats_ok_success (existing : List ExistingRuleFile) (dryRun : Bool) :
    ∀ (entries : List (String × Option RuleCategory)) (res : RulesManagerResult)
      (fs : FS) (res2 : RulesManagerResult) (fs2 : FS),
    processCats existing dryRun entries res fs = .ok (res2, fs2) →
    res2.success = res.success := by
  intro entries
  induction entries with
  | nil =>
    intro res fs res2 fs2 h
    simp only [processCats, Except.ok.injEq, Prod.mk.injEq] at h
    rw [← h.1]
  | cons e rest ih =>
    intro res fs res2 fs2 h
    obtain ⟨k, c⟩ := e
    cases c with
    | none => exact ih res fs res2 fs2 h
    | some cat =>
      by_cases he : cat.rules.isEmpty
      · simp only [processCats, he, if_true] at h
        exact ih res fs res2 fs2 h
      · simp only [processCats, he, Bool.false_eq_true, if_false] at h
        cases hf : existing.find?
            (fun r => sLower r.filename = sLower (generateFilename k)) with
        | some ef =>
          simp only [hf] at h
          by_cases hn : needsUpdate ef.content (convertToMDC k cat)
          · rw [if_pos hn] at h
            cases hw : (if dryRun then (.ok fs : Except (String × FS) FS)
                else fsWriteFile fs (generateFilename k) (convertToMDC k cat)) with
            | error e2 =>
              simp only [hw] at h
              exact Except.noConfusion h
            | ok fsw =>
              simp only [hw] at h
              have h2 := ih _ fsw res2 fs2 h
              exact h2
          · rw [if_neg hn] at h
            have h2 := ih _ fs res2 fs2 h
            exact h2
        | none =>
          simp only [hf] at h
          cases hw : (if dryRun then (.ok fs : Except (String × FS) FS)
              else fsWriteFile fs (generateFilename k) (convertToMDC k cat)) with
          | error e2 =>
            simp only [hw] at h
            exact Except.noConfusion h
          | ok fsw =>
            simp only [hw] at h
            have h2 := ih _ fsw res2 fs2 h
            exact h2

/-- Whatever the summary step returns, the success flag is the one it
started with. -/
theorem summaryStep_ok_success (analysisData : AnalysisData) (now : String)
    (existing : List ExistingRuleFile) (existingLower : List String)
    (dryRun : Bool) (res : RulesManagerResult) (fs : FS)
    (res2 : RulesManagerResult) (fs2 : FS)
    (h : summaryStep analysisData now existing existingLower dryRun res fs =
      .ok (res2, fs2)) :
    res2.success = res.success := by
  simp only [summaryStep] at h
  by_cases hc : existingLower.contains (sLower summaryFilename)
  · simp only [hc, Bool.not_true, Bool.false_eq_true, if_false] at h
    cases hf : existing.find? (fun r => sLower r.filename = sLower summaryFilename) with
    | some ef =>
      simp only [hf] at h
      by_cases hn : needsUpdate ef.content (createSummary analysisData now)
      · rw [if_pos hn] at h
        cases hw : (if dryRun then (.ok fs : Except (String × FS) FS)
            else fsWriteFile fs summaryFilename (createSummary analysisData now)) with
        | error e2 =>
          simp only [hw] at h
          exact Except.noConfusion h
        | ok fsw =>
          simp only [hw, Except.ok.injEq, Prod.mk.injEq] at h
          rw [← h.1]
      · rw [if_neg hn] at h
        by_cases hm : res.unchanged.contains summaryFilename
        · simp only [hm, if_true, Except.ok.injEq, Prod.mk.injEq] at h
          rw [← h.1]
        · simp only [hm, Bool.false_eq_true, if_false, Except.ok.injEq,
            Prod.mk.injEq] at h
          rw [← h.1]
    | none =>
      simp only [hf] at h
      by_cases hm : res.unchanged.contains summaryFilename
      · simp only [hm, if_true, Except.ok.injEq, Prod.mk.injEq] at h
        rw [← h.1]
      · simp only [hm, Bool.false_eq_true, if_false, Except.ok.injEq,
          Prod.mk.injEq] at h
        rw [← h.1]
  · have hc2 : existingLower.contains (sLower summaryFilename) = false := by
      simpa using hc
    simp only [hc2, Bool.not_false, if_true] at h
    cases hw : (if dryRun then (.ok fs : Except (String × FS) FS)
        else fsWriteFile fs summaryFilename (createSummary analysisData now)) with
    | error e2 =>
      simp only [hw] at h
      exact Except.noConfusion h
    | ok fsw =>
      simp only [hw, Except.ok.injEq, Prod.mk.injEq] at h
      rw [← h.1]

theorem catStep_unchanged_elim (existing : List ExistingRuleFile) (k : String)
    (cat : RuleCategory) (h : catStep existing k cat = .unchangedO) :
    ∃ ef, existing.find? (fun r => sLower r.filename = sLower (generateFilename k)) = some ef ∧
      needsUpdate ef.content (convertToMDC k cat) = false := by
  unfold catStep at h
  split at h
  case h_1 ef heq =>
    split at h
    · exact absurd h (by simp)
    · exact ⟨ef, heq, by simpa using (by assumption : ¬needsUpdate ef.content (convertToMDC k cat) = true)⟩
  case h_2 => exact absurd h (by simp)

theorem catStep_unchanged_intro (existing : List ExistingRuleFile) (k : String)
    (cat : RuleCategory) (ef : ExistingRuleFile)
    (hf : existing.find? (fun r => sLower r.filename = sLower (generateFilename k)) = some ef)
    (hn : needsUpdate ef.content (convertToMDC k cat) = false) :
    catStep existing k cat = .unchangedO := by
  unfold catStep
  simp only [hf, hn, Bool.false_eq_true, if_false]

theorem mem_processedFilenames_elim (entries : List (String × Option RuleCategory))
    (f : String) (h : f ∈ processedFilenames entries) :
    ∃ k cat, (k, some cat) ∈ entries ∧ cat.rules.isEmpty = false ∧
      f = generateFilename k := by
  obtain ⟨e, he, hfe⟩ := List.mem_filterMap.mp h
  obtain ⟨k, c⟩ := e
  cases c with
  | none => simp at hfe
  | some cat =>
    by_cases hemp : cat.rules.isEmpty
    · simp [hemp] at hfe
    · refine ⟨k, cat, he, by simpa using hemp, ?_⟩
      simp only [hemp, Bool.false_eq_true, if_false, Option.some.injEq] at hfe
      rw [hfe]

theorem mem_processedFilenames_intro (entries : List (String × Option RuleCategory))
    (k : String) (cat : RuleCategory) (he : (k, some cat) ∈ entries)
    (hemp : cat.rules.isEmpty = false) :
    generateFilename k ∈ processedFilenames entries :=
  List.mem_filterMap.mpr ⟨(k, some cat), he, by simp [hemp]⟩

theorem mem_createdOf_elim (existing : List ExistingRuleFile)
    (entries : List (String × Option RuleCategory)) (f : String)
    (h : f ∈ createdOf existing entries) :
    ∃ k cat, (k, some cat) ∈ entries ∧ cat.rules.isEmpty = false ∧
      catStep existing k cat = .createdO ∧ f = generateFilename k := by
  obtain ⟨e, he, hfe⟩ := List.mem_filterMap.mp h
  obtain ⟨k, c⟩ := e
  cases c with
  | none => simp at hfe
  | some cat =>
    by_cases hemp : cat.rules.isEmpty
    · simp [hemp] at hfe
    · simp only [hemp, Bool.false_eq_true, if_false] at hfe
      by_cases hs : catStep existing k cat = .createdO
      · refine ⟨k, cat, he, by simpa using hemp, hs, ?_⟩
        simp only [hs, if_true, Option.some.injEq] at hfe
        rw [hfe]
      · simp [hs] at hfe

theorem mem_updatedOf_elim (existing : List ExistingRuleFile)
    (entries : List (String × Option RuleCategory)) (f : String)
    (h : f ∈ updatedOf existing entries) :
    ∃ k cat, (k, some cat) ∈ entries ∧ cat.rules.isEmpty = false ∧
      catStep existing k cat = .updatedO ∧ f = generateFilename k := by
  obtain ⟨e, he, hfe⟩ := List.mem_filterMap.mp h
  obtain ⟨k, c⟩ := e
  cases c with
  | none => simp at hfe
  | some cat =>
    by_cases hemp : cat.rules.isEmpty
    · simp [hemp] at hfe
    · simp only [hemp, Bool.false_eq_true, if_false] at hfe
      by_cases hs : catStep existing k cat = .updatedO
      · refine ⟨k, cat, he, by simpa using hemp, hs, ?_⟩
        simp only [hs, if_true, Option.some.injEq] at hfe
        rw [hfe]
      · simp [hs] at hfe

theorem mem_unchangedOf_elim (existing : List ExistingRuleFile)
    (entries : List (String × Option RuleCategory)) (f : String)
    (h : f ∈ unchangedOf existing entries) :
    ∃ k cat, (k, some cat) ∈ entries ∧ cat.rules.isEmpty = false ∧
      catStep existing k cat = .unchangedO ∧ f = generateFilename k := by
  obtain ⟨e, he, hfe⟩ := List.mem_filterMap.mp h
  obtain ⟨k, c⟩ := e
  cases c with
  | none => simp at hfe
  | some cat =>
    by_cases hemp : cat.rules.isEmpty
    · simp [hemp] at hfe
    · simp only [hemp, Bool.false_eq_true, if_false] at hfe
      by_cases hs : catStep existing k cat = .unchangedO
      · refine ⟨k, cat, he, by simpa using hemp, hs, ?_⟩
        simp only [hs, if_true, Option.some.injEq] at hfe
        rw [hfe]
      · simp [hs] at hfe

theorem mem_catWrites_elim (existing : List ExistingRuleFile)
    (entries : List (String × Option RuleCategory)) (n c : String)
    (h : (n, c) ∈ catWrites existing entries) :
    ∃ k cat, (k, some cat) ∈ entries ∧ cat.rules.isEmpty = false ∧
      ¬(catStep existing k cat = .unchangedO) ∧ n = generateFilename k ∧
      c = convertToMDC k cat := by
  obtain ⟨e, he, hfe⟩ := List.mem_filterMap.mp h
  obtain ⟨k, cc⟩ := e
  cases cc with
  | none => simp at hfe
  | some cat =>
    by_cases hemp : cat.rules.isEmpty
    · simp [hemp] at hfe
    · simp only [hemp, Bool.false_eq_true, if_false] at hfe
      by_cases hs : catStep existing k cat = .unchangedO
      · simp [hs] at hfe
      · rw [if_neg hs] at hfe
        injection hfe with hp
        refine ⟨k, cat, he, by simpa using hemp, hs,
          (congrArg Prod.fst hp).symm, (congrArg Prod.snd hp).symm⟩

theorem mem_catWrites_intro (existing : List ExistingRuleFile)
    (entries : List (String × Option RuleCategory)) (k : String)
    (cat : RuleCategory) (he : (k, some cat) ∈ entries)
    (hemp : cat.rules.isEmpty = false)
    (hs : ¬(catStep existing k cat = .unchangedO)) :
    (generateFilename k, convertToMDC k cat) ∈ catWrites existing entries :=
  List.mem_filterMap.mpr ⟨(k, some cat), he, by simp [hemp, hs]⟩

theorem catWrites_names_sublist (existing : List ExistingRuleFile) :
    ∀ entries : List (String × Option RuleCategory),
    ((catWrites existing entries).map Prod.fst).Sublist (processedFilenames entries) := by
  intro entries
  induction entries with
  | nil => simp [catWrites, processedFilenames]
  | cons e rest ih =>
    obtain ⟨k, c⟩ := e
    cases c with
    | none =>
      simp only [catWrites, processedFilenames, List.filterMap_cons]
      exact ih
    | some cat =>
      by_cases hemp : cat.rules.isEmpty
      · simp only [catWrites, processedFilenames, List.filterMap_cons, hemp, if_true]
        exact ih
      · have hemp2 : cat.rules.isEmpty = false := by simpa using hemp
        by_cases hs : catStep existing k cat = .unchangedO
        · simp only [catWrites, processedFilenames, List.filterMap_cons, hemp2,
            Bool.false_eq_true, if_false, hs, if_true]
          exact List.Sublist.cons _ ih
        · simp only [catWrites, processedFilenames, List.filterMap_cons, hemp2,
            Bool.false_eq_true, if_false, if_neg hs, List.map_cons]
          exact List.Sublist.cons₂ _ ih

theorem mem_summaryWrites_elim (analysisData : AnalysisData) (now : String)
    (existing : List ExistingRuleFile) (existingLower : List String)
    (n c : String) (h : (n, c) ∈ summaryWrites analysisData now existing existingLower) :
    n = summaryFilename ∧ c = createSummary analysisData now := by
  unfold summaryWrites at h
  split at h
  · have h2 := List.mem_singleton.mp h
    exact ⟨congrArg Prod.fst h2, congrArg Prod.snd h2⟩
  · split at h
    · split at h
      · have h2 := List.mem_singleton.mp h
        exact ⟨congrArg Prod.fst h2, congrArg Prod.snd h2⟩
      · simp at h
    · simp at h

theorem summaryOutcome_created_elim (analysisData : AnalysisData) (now : String)
    (existing : List ExistingRuleFile) (existingLower : List String)
    (res : RulesManagerResult) (x : String)
    (h : x ∈ (summaryOutcome analysisData now existing existingLower res).created) :
    x ∈ res.created ∨ x = summaryFilename := by
  unfold summaryOutcome at h
  split at h
  · rcases List.mem_append.mp h with h2 | h2
    · exact Or.inl h2
    · exact Or.inr (List.mem_singleton.mp h2)
  · split at h
    · split at h
      · exact Or.inl h
      · split at h
        · exact Or.inl h
        · exact Or.inl h
    · split at h
      · exact Or.inl h
      · exact Or.inl h

theorem summaryOutcome_updated_elim (analysisData : AnalysisData) (now : String)
    (existing : List ExistingRuleFile) (existingLower : List String)
    (res : RulesManagerResult) (x : String)
    (h : x ∈ (summaryOutcome analysisData now existing existingLower res).updated) :
    x ∈ res.updated ∨ x = summaryFilename := by
  unfold summaryOutcome at h
  split at h
  · exact Or.inl h
  · split at h
    · split at h
      · rcases List.mem_append.mp h with h2 | h2
        · exact Or.inl h2
        · exact Or.inr (List.mem_singleton.mp h2)
      · split at h
        · exact Or.inl h
        · exact Or.inl h
    · split at h
      · exact Or.inl h
      · exact Or.inl h

theorem summaryOutcome_unchanged_elim (analysisData : AnalysisData) (now : String)
    (existing : List ExistingRuleFile) (existingLower : List String)
    (res : RulesManagerResult) (x : String)
    (h : x ∈ (summaryOutcome analysisData now existing existingLower res).unchanged) :
    x ∈ res.unchanged ∨ x = summaryFilename := by
  unfold summaryOutcome at h
  split at h
  · exact Or.inl h
  · split at h
    · split at h
      · exact Or.inl h
      · split at h
        · exact Or.inl h
        · rcases List.mem_append.mp h with h2 | h2
          · exact Or.inl h2
          · exact Or.inr (List.mem_singleton.mp h2)
    · split at h
      · exact Or.inl h
      · rcases List.mem_append.mp h with h2 | h2
        · exact Or.inl h2
        · exact Or.inr (List.mem_singleton.mp h2)

theorem summaryOutcome_created_mono (analysisData : AnalysisData) (now : String)
    (existing : List ExistingRuleFile) (existingLower : List String)
    (res : RulesManagerResult) (x : String) (h : x ∈ res.created) :
    x ∈ (summaryOutcome analysisData now existing existingLower res).created := by
  unfold summaryOutcome
  split
  · exact List.mem_append.mpr (Or.inl h)
  · split
    · split
      · exact h
      · split
        · exact h
        · exact h
    · split
      · exact h
      · exact h

theorem summaryOutcome_updated_mono (analysisData : AnalysisData) (now : String)
    (existing : List ExistingRuleFile) (existingLower : List String)
    (res : RulesManagerResult) (x : String) (h : x ∈ res.updated) :
    x ∈ (summaryOutcome analysisData now existing existingLower res).updated := by
  unfold summaryOutcome
  split
  · exact h
  · split
    · split
      · exact List.mem_append.mpr (Or.inl h)
      · split
        · exact h
        · exact h
    · split
      · exact h
      · exact h

theorem summaryOutcome_unchanged_mono (analysisData : AnalysisData) (now : String)
    (existing : List ExistingRuleFile) (existingLower : List String)
    (res : RulesManagerResult) (x : String) (h : x ∈ res.unchanged) :
    x ∈ (summaryOutcome analysisData now existing existingLower res).unchanged := by
  unfold summaryOutcome
  split
  · exact h
  · split
    · split
      · exact h
      · split
        · exact h
        · exact List.mem_append.mpr (Or.inl h)
    · split
      · exact h
      · exact List.mem_append.mpr (Or.inl h)

/-- The summary document always lands in one of the three result
lists. -/
theorem summaryOutcome_readme_mem (analysisData : AnalysisData) (now : String)
    (existing : List ExistingRuleFile) (existingLower : List String)
    (res : RulesManagerResult) :
    summaryFilename ∈ (summaryOutcome analysisData now existing existingLower res).created ∨
    summaryFilename ∈ (summaryOutcome analysisData now existing existingLower res).updated ∨
    summaryFilename ∈ (summaryOutcome analysisData now existing existingLower res).unchanged := by
  unfold summaryOutcome
  split
  · exact Or.inl (List.mem_append.mpr (Or.inr (List.mem_singleton.mpr rfl)))
  · split
    · split
      · exact Or.inr (Or.inl (List.mem_append.mpr (Or.inr (List.mem_singleton.mpr rfl))))
      · split
        case isTrue hm => exact Or.inr (Or.inr (List.elem_iff.mp hm))
        case isFalse =>
          exact Or.inr (Or.inr (List.mem_append.mpr (Or.inr (List.mem_singleton.mpr rfl))))
    · split
      case isTrue hm => exact Or.inr (Or.inr (List.elem_iff.mp hm))
      case isFalse =>
        exact Or.inr (Or.inr (List.mem_append.mpr (Or.inr (List.mem_singleton.mpr rfl))))

theorem find?_some_of_exists {α : Type} (p : α → Bool) (l : List α)
    (h : ∃ x ∈ l, p x = true) :
    ∃ y, l.find? p = some y ∧ p y = true ∧ y ∈ l := by
  obtain ⟨x, hx, hpx⟩ := h
  cases hf : l.find? p with
  | none => exact absurd hpx (List.find?_eq_none.mp hf x hx)
  | some y => exact ⟨y, rfl, List.find?_some hf, List.mem_of_find?_eq_some hf⟩

theorem mem_readExistingRules_elim (fs : FS) (ef : ExistingRuleFile)
    (h : ef ∈ readExistingRules fs) :
    (ef.filename, ef.content) ∈ fs.files ∧ recognizedExt ef.filename = true := by
  unfold readExistingRules at h
  by_cases hd : fs.dirExists
  · rw [if_pos hd] at h
    obtain ⟨p, hp, hpe⟩ := List.mem_map.mp h
    have hp2 := List.mem_filter.mp hp
    constructor
    · rw [← hpe]; exact hp2.1
    · rw [← hpe]; exact hp2.2
  · rw [if_neg hd] at h; simp at h

theorem mem_readExistingRules_intro (fs : FS) (n c : String)
    (hd : fs.dirExists = true) (hm : (n, c) ∈ fs.files)
    (hr : recognizedExt n = true) :
    (⟨n, c⟩ : ExistingRuleFile) ∈ readExistingRules fs := by
  unfold readExistingRules
  rw [if_pos hd]
  exact List.mem_map.mpr ⟨(n, c), List.mem_filter.mpr ⟨hm, hr⟩, rfl⟩

theorem stringJoin_append :
    ∀ l1 l2 : List String, String.join (l1 ++ l2) = String.join l1 ++ String.join l2 := by
  intro l1 l2
  apply String.ext
  simp [String.join_eq, List.map_append, List.flatten_append]

/-- Removing a skipped entry from the mapping does not change the
summary document. -/
theorem createSummary_skip_invariant (now key : String) (c : Option RuleCategory)
    (hskip : catSkipped c = true) (pre post : List (String × Option RuleCategory)) :
    createSummary (pre ++ (key, c) :: post) now = createSummary (pre ++ post) now := by
  have hline : summaryEntryLine (key, c) = "" := by
    cases c with
    | none => rfl
    | some cat =>
      simp only [catSkipped] at hskip
      simp [summaryEntryLine, hskip]
  unfold createSummary
  have hj : String.join ((pre ++ (key, c) :: post).map summaryEntryLine) =
      String.join ((pre ++ post).map summaryEntryLine) := by
    rw [List.map_append, List.map_cons, List.map_append, stringJoin_append,
      stringJoin_append, hline]
    simp [String.join]
  rw [hj]

theorem fsEnsureDir_files (fs : FS) : (fsEnsureDir fs).files = fs.files := by
  by_cases hd : fs.dirExists <;> simp [fsEnsureDir, hd]

theorem fsEnsureDir_id (fs : FS) (hd : fs.dirExists = true) : fsEnsureDir fs = fs := by
  simp [fsEnsureDir, hd]

theorem needsUpdate_false_iff (a b : String) :
    needsUpdate a b = false ↔ normalize a = normalize b := by
  simp [needsUpdate]

theorem needsUpdate_true_iff (a b : String) :
    needsUpdate a b = true ↔ ¬(normalize a = normalize b) := by
  simp [needsUpdate]

theorem recognizedExt_summaryFilename : recognizedExt summaryFilename = true := by
  decide

theorem sLower_summaryFilename : sLower summaryFilename = "readme.md" := rfl

theorem summaryWrites_cases (analysisData : AnalysisData) (now : String)
    (existing : List ExistingRuleFile) (existingLower : List String) :
    summaryWrites analysisData now existing existingLower =
      [(summaryFilename, createSummary analysisData now)] ∨
    summaryWrites analysisData now existing existingLower = [] := by
  unfold summaryWrites
  split
  · exact Or.inl rfl
  · split
    · split
      · exact Or.inl rfl
      · exact Or.inr rfl
    · exact Or.inr rfl

theorem summaryWrites_eq_nil_elim (analysisData : AnalysisData) (now : String)
    (existing : List ExistingRuleFile) (existingLower : List String)
    (h : summaryWrites analysisData now existing existingLower = []) :
    existingLower.contains (sLower summaryFilename) = true := by
  unfold summaryWrites at h
  split at h
  · cases h
  case isFalse hc =>
    by_cases hc2 : existingLower.contains (sLower summaryFilename) = true
    · exact hc2
    · exact absurd (Bool.eq_false_iff.mpr hc2) (by simpa using hc)

theorem summaryOutcome_updated_branch (analysisData : AnalysisData) (now : String)
    (existing : List ExistingRuleFile) (existingLower : List String)
    (res : RulesManagerResult) (ef : ExistingRuleFile)
    (hc : existingLower.contains (sLower summaryFilename) = true)
    (hf : existing.find? (fun r => sLower r.filename = sLower summaryFilename) = some ef)
    (hn : needsUpdate ef.content (createSummary analysisData now) = true) :
    summaryOutcome analysisData now existing existingLower res =
      { res with updated := res.updated ++ [summaryFilename] } := by
  unfold summaryOutcome
  simp only [hc, Bool.not_true, Bool.false_eq_true, if_false, hf, hn, if_true]

theorem mem_createdOf_intro (existing : List ExistingRuleFile)
    (entries : List (String × Option RuleCategory)) (k : String)
    (cat : RuleCategory) (he : (k, some cat) ∈ entries)
    (hemp : cat.rules.isEmpty = false)
    (hs : catStep existing k cat = .createdO) :
    generateFilename k ∈ createdOf existing entries :=
  List.mem_filterMap.mpr ⟨(k, some cat), he, by simp [hemp, hs]⟩

theorem mem_updatedOf_intro (existing : List ExistingRuleFile)
    (entries : List (String × Option RuleCategory)) (k : String)
    (cat : RuleCategory) (he : (k, some cat) ∈ entries)
    (hemp : cat.rules.isEmpty = false)
    (hs : catStep existing k cat = .updatedO) :
    generateFilename k ∈ updatedOf existing entries :=
  List.mem_filterMap.mpr ⟨(k, some cat), he, by simp [hemp, hs]⟩

theorem mem_unchangedOf_intro (existing : List ExistingRuleFile)
    (entries : List (String × Option RuleCategory)) (k : String)
    (cat : RuleCategory) (he : (k, some cat) ∈ entries)
    (hemp : cat.rules.isEmpty = false)
    (hs : catStep existing k cat = .unchangedO) :
    generateFilename k ∈ unchangedOf existing entries :=
  List.mem_filterMap.mpr ⟨(k, some cat), he, by simp [hemp, hs]⟩

/-- Folded form of the non-dry characterization. -/
theorem writeRules_wet2 (d : AnalysisData) (now : String) (fs0 : FS)
    (hb : fs0.broken = []) :
    writeRules d false now fs0 = (passRes d now fs0, passFS d now fs0) := by
  rw [writeRules_wet d now fs0 hb]
  rfl

/-- A synchronization pass over a directory whose category files already
match the data normalize-equal and whose readme-like files all differ
from the fresh summary reports every category unchanged and only the
summary updated. -/
theorem second_pass_clean (d : AnalysisData) (t2 : String) (f1 : FS)
    (hdir : f1.dirExists = true) (hbrk : f1.broken = [])
    (hgood2 : ∀ p ∈ f1.files, recognizedExt p.1 = true →
      sLower p.1 = p.1 ∨ p.1 = summaryFilename)
    (hnodup2 : (f1.files.map Prod.fst).Nodup)
    (hcat2 : ∀ k cat, (k, some cat) ∈ d → cat.rules.isEmpty = false →
      ∃ content, (generateFilename k, content) ∈ f1.files ∧
        normalize content = normalize (convertToMDC k cat))
    (hrdall : ∀ p ∈ f1.files, sLower p.1 = "readme.md" →
      needsUpdate p.2 (createSummary d t2) = true)
    (hrdex : ∃ p, p ∈ f1.files ∧ recognizedExt p.1 = true ∧ sLower p.1 = "readme.md") :
    (writeRules d false t2 f1).1.created = [] ∧
    (writeRules d false t2 f1).1.updated = [summaryFilename] := by
  have hE2 : readExistingRules (fsEnsureDir f1) = readExistingRules f1 := by
    rw [fsEnsureDir_id f1 hdir]
  have hstep2 : ∀ k cat, (k, some cat) ∈ d → cat.rules.isEmpty = false →
      catStep (readExistingRules f1) k cat = .unchangedO := by
    intro k cat he hemp
    obtain ⟨content, hmem, hnorm⟩ := hcat2 k cat he hemp
    have hrec := recognizedExt_generateFilename k
    have hef : (⟨generateFilename k, content⟩ : ExistingRuleFile) ∈ readExistingRules f1 :=
      mem_readExistingRules_intro f1 _ _ hdir hmem hrec
    have hex : ∃ r ∈ readExistingRules f1,
        (fun r : ExistingRuleFile =>
          decide (sLower r.filename = sLower (generateFilename k))) r = true :=
      ⟨⟨generateFilename k, content⟩, hef, by simp⟩
    obtain ⟨ef2, hf2, hp2, hm2⟩ := find?_some_of_exists _ _ hex
    have hp2p : sLower ef2.filename = generateFilename k := by
      have h0 : sLower ef2.filename = sLower (generateFilename k) := of_decide_eq_true hp2
      rw [sLower_generateFilename] at h0
      exact h0
    obtain ⟨hmm2, hrec2⟩ := mem_readExistingRules_elim f1 ef2 hm2
    have hfn2 : ef2.filename = generateFilename k := by
      rcases hgood2 (ef2.filename, ef2.content) hmm2 hrec2 with hg | hg
      · have hg2 : sLower ef2.filename = ef2.filename := hg
        rw [← hg2]
        exact hp2p
      · have hg2 : ef2.filename = summaryFilename := hg
        exfalso
        rw [hg2, sLower_summaryFilename] at hp2p
        exact (generateFilename_ne_readme k).1 hp2p.symm
    have hcontent : ef2.content = content := by
      apply assoc_nodup_unique f1.files (generateFilename k) _ _ hnodup2
      · exact hfn2 ▸ hmm2
      · exact hmem
    refine catStep_unchanged_intro _ k cat ef2 hf2 ?_
    rw [needsUpdate_false_iff, hcontent, hnorm]
  have hcre : createdOf (readExistingRules f1) d = [] := by
    unfold createdOf
    rw [List.filterMap_eq_nil_iff]
    intro e he
    obtain ⟨k, c⟩ := e
    cases c with
    | none => rfl
    | some cat =>
      by_cases hemp : cat.rules.isEmpty
      · simp [hemp]
      · have hemp2 : cat.rules.isEmpty = false := by simpa using hemp
        have hs := hstep2 k cat he hemp2
        simp [hemp2, hs]
  have hupd : updatedOf (readExistingRules f1) d = [] := by
    unfold updatedOf
    rw [List.filterMap_eq_nil_iff]
    intro e he
    obtain ⟨k, c⟩ := e
    cases c with
    | none => rfl
    | some cat =>
      by_cases hemp : cat.rules.isEmpty
      · simp [hemp]
      · have hemp2 : cat.rules.isEmpty = false := by simpa using hemp
        have hs := hstep2 k cat he hemp2
        simp [hemp2, hs]
  obtain ⟨p0, hp0mem, hp0rec, hp0low⟩ := hrdex
  have hef0 : (⟨p0.1, p0.2⟩ : ExistingRuleFile) ∈ readExistingRules f1 :=
    mem_readExistingRules_intro f1 _ _ hdir hp0mem hp0rec
  have hcont2 : ((readExistingRules f1).map (fun r => sLower r.filename)).contains
      (sLower summaryFilename) = true := by
    apply List.elem_eq_true_of_mem
    rw [sLower_summaryFilename]
    exact List.mem_map.mpr ⟨⟨p0.1, p0.2⟩, hef0, hp0low⟩
  have hex3 : ∃ r ∈ readExistingRules f1,
      (fun r : ExistingRuleFile =>
        decide (sLower r.filename = sLower summaryFilename)) r = true :=
    ⟨⟨p0.1, p0.2⟩, hef0, by simp [sLower_summaryFilename, hp0low]⟩
  obtain ⟨ef3, hf3, hp3, hm3⟩ := find?_some_of_exists _ _ hex3
  have hp3p : sLower ef3.filename = "readme.md" := by
    have h0 := of_decide_eq_true hp3
    rw [sLower_summaryFilename] at h0
    exact h0
  obtain ⟨hmm3, hrec3⟩ := mem_readExistingRules_elim f1 ef3 hm3
  have hn3 : needsUpdate ef3.content (createSummary d t2) = true :=
    hrdall (ef3.filename, ef3.content) hmm3 hp3p
  simp only [writeRules_wet d t2 f1 hbrk, hE2]
  rw [summaryOutcome_updated_branch d t2 (readExistingRules f1) _ _ ef3 hcont2 hf3 hn3]
  constructor
  · simp [classifyCats, hcre]
  · simp [classifyCats, hupd]

/-- After a first non-dry pass over a well-formed directory, the
resulting directory satisfies the preconditions of
`second_pass_clean`. -/
theorem first_pass_facts (d : AnalysisData) (t1 t2 : String) (fs0 : FS)
    (hb : fs0.broken = [])
    (hnodup : (fs0.files.map Prod.fst).Nodup)
    (hgood : ∀ p ∈ fs0.files, recognizedExt p.1 = true →
      sLower p.1 = p.1 ∨ p.1 = summaryFilename)
    (hinj : (processedFilenames d).Nodup)
    (hsum : normalize (createSummary d t1) ≠ normalize (createSummary d t2))
    (hreadme : ∀ p ∈ fs0.files, sLower p.1 = "readme.md" →
      normalize p.2 ≠ normalize (createSummary d t2)) :
    (passFS d t1 fs0).dirExists = true ∧
    (passFS d t1 fs0).broken = [] ∧
    (∀ p ∈ (passFS d t1 fs0).files, recognizedExt p.1 = true →
      sLower p.1 = p.1 ∨ p.1 = summaryFilename) ∧
    ((passFS d t1 fs0).files.map Prod.fst).Nodup ∧
    (∀ k cat, (k, some cat) ∈ d → cat.rules.isEmpty = false →
      ∃ content, (generateFilename k, content) ∈ (passFS d t1 fs0).files ∧
        normalize content = normalize (convertToMDC k cat)) ∧
    (∀ p ∈ (passFS d t1 fs0).files, sLower p.1 = "readme.md" →
      needsUpdate p.2 (createSummary d t2) = true) ∧
    (∃ p, p ∈ (passFS d t1 fs0).files ∧ recognizedExt p.1 = true ∧
      sLower p.1 = "readme.md") := by
  have hfiles0 : (fsEnsureDir fs0).files = fs0.files := fsEnsureDir_files fs0
  have hmemElim : ∀ n c, (n, c) ∈ (passFS d t1 fs0).files →
      ((n, c) ∈ fs0.files ∨ (n, c) ∈ passWrites d t1 fs0) ∧
      staleName (passKeepLower d t1 fs0) n = false := by
    intro n c h
    have h2 := List.mem_filter.mp h
    constructor
    · rcases applyUpserts_mem_elim _ _ n c h2.1 with h3 | h3
      · left
        rw [← hfiles0]
        exact h3
      · right
        exact h3
    · simpa using h2.2
  have hWelim : ∀ n c, (n, c) ∈ passWrites d t1 fs0 →
      (∃ k2 cat2, (k2, some cat2) ∈ d ∧ cat2.rules.isEmpty = false ∧
        ¬(catStep (passSnapshot fs0) k2 cat2 = .unchangedO) ∧
        n = generateFilename k2 ∧ c = convertToMDC k2 cat2) ∨
      (n = summaryFilename ∧ c = createSummary d t1) := by
    intro n c h
    rcases List.mem_append.mp h with h2 | h2
    · exact Or.inl (mem_catWrites_elim _ _ _ _ h2)
    · exact Or.inr (mem_summaryWrites_elim _ _ _ _ _ _ h2)
  have hWnodup : ((passWrites d t1 fs0).map Prod.fst).Nodup := by
    show ((catWrites (passSnapshot fs0) d ++
      summaryWrites d t1 (passSnapshot fs0) (passSnapshotLower fs0)).map Prod.fst).Nodup
    rw [List.map_append]
    refine List.Nodup.append ?_ ?_ ?_
    · exact List.Nodup.sublist (catWrites_names_sublist (passSnapshot fs0) d) hinj
    · rcases summaryWrites_cases d t1 (passSnapshot fs0) (passSnapshotLower fs0) with hc | hc
      · rw [hc]; simp
      · rw [hc]; simp
    · intro a ha hb2
      obtain ⟨p1, hp1, hp1e⟩ := List.mem_map.mp ha
      obtain ⟨p2, hp2, hp2e⟩ := List.mem_map.mp hb2
      obtain ⟨k2, cat2, _, _, _, hn2, _⟩ := mem_catWrites_elim _ _ p1.1 p1.2 hp1
      obtain ⟨hs1, _⟩ := mem_summaryWrites_elim _ _ _ _ p2.1 p2.2 hp2
      have hcontra : generateFilename k2 = summaryFilename := by
        rw [← hn2, hp1e, ← hp2e, hs1]
      exact (generateFilename_ne_readme k2).2 hcontra
  have hkeep_of_res : ∀ m, (m ∈ (passRes d t1 fs0).created ∨
      m ∈ (passRes d t1 fs0).updated ∨ m ∈ (passRes d t1 fs0).unchanged) →
      sLower m ∈ passKeepLower d t1 fs0 := by
    intro m hm
    show sLower m ∈ ((passRes d t1 fs0).created ++ (passRes d t1 fs0).updated ++
      (passRes d t1 fs0).unchanged).map sLower
    refine List.mem_map.mpr ⟨m, ?_, rfl⟩
    rcases hm with h | h | h
    · exact List.mem_append.mpr (Or.inl (List.mem_append.mpr (Or.inl h)))
    · exact List.mem_append.mpr (Or.inl (List.mem_append.mpr (Or.inr h)))
    · exact List.mem_append.mpr (Or.inr h)
  have hreadme_in_keep : "readme.md" ∈ passKeepLower d t1 fs0 := by
    have h0 := summaryOutcome_readme_mem d t1 (passSnapshot fs0) (passSnapshotLower fs0)
      (classifyCats (passSnapshot fs0) d ⟨true, [], [], [], none⟩)
    have h1 : summaryFilename ∈ (passRes d t1 fs0).created ∨
        summaryFilename ∈ (passRes d t1 fs0).updated ∨
        summaryFilename ∈ (passRes d t1 fs0).unchanged := h0
    have h2 := hkeep_of_res summaryFilename h1
    rw [sLower_summaryFilename] at h2
    exact h2
  have hstale_readme : staleName (passKeepLower d t1 fs0) summaryFilename = false := by
    unfold staleName
    rw [sLower_summaryFilename]
    have hc : (passKeepLower d t1 fs0).contains "readme.md" = true :=
      List.elem_eq_true_of_mem hreadme_in_keep
    rw [hc]
    rfl
  have hstale_gf : ∀ k cat, (k, some cat) ∈ d → cat.rules.isEmpty = false →
      staleName (passKeepLower d t1 fs0) (generateFilename k) = false := by
    intro k cat he hemp
    have hmemk : sLower (generateFilename k) ∈ passKeepLower d t1 fs0 := by
      cases hs : catStep (passSnapshot fs0) k cat with
      | createdO =>
        have h1 : generateFilename k ∈
            (classifyCats (passSnapshot fs0) d ⟨true, [], [], [], none⟩).created := by
          simpa [classifyCats] using
            mem_createdOf_intro (passSnapshot fs0) d k cat he hemp hs
        exact hkeep_of_res _ (Or.inl (summaryOutcome_created_mono _ _ _ _ _ _ h1))
      | updatedO =>
        have h1 : generateFilename k ∈
            (classifyCats (passSnapshot fs0) d ⟨true, [], [], [], none⟩).updated := by
          simpa [classifyCats] using
            mem_updatedOf_intro (passSnapshot fs0) d k cat he hemp hs
        exact hkeep_of_res _ (Or.inr (Or.inl (summaryOutcome_updated_mono _ _ _ _ _ _ h1)))
      | unchangedO =>
        have h1 : generateFilename k ∈
            (classifyCats (passSnapshot fs0) d ⟨true, [], [], [], none⟩).unchanged := by
          simpa [classifyCats] using
            mem_unchangedOf_intro (passSnapshot fs0) d k cat he hemp hs
        exact hkeep_of_res _ (Or.inr (Or.inr (summaryOutcome_unchanged_mono _ _ _ _ _ _ h1)))
    unfold staleName
    have hc : (passKeepLower d t1 fs0).contains (sLower (generateFilename k)) = true :=
      List.elem_eq_true_of_mem hmemk
    rw [hc]
    rfl
  refine ⟨?_, ?_, ?_, ?_, ?_, ?_, ?_⟩
  · show (applyUpserts (fsEnsureDir fs0) (passWrites d t1 fs0)).dirExists = true
    rw [applyUpserts_dirExists]
    exact fsEnsureDir_dirExists fs0
  · show (applyUpserts (fsEnsureDir fs0) (passWrites d t1 fs0)).broken = []
    rw [applyUpserts_broken]
    rw [fsEnsureDir_broken]
    exact hb
  · intro p hp hrec
    obtain ⟨horig, _⟩ := hmemElim p.1 p.2 hp
    rcases horig with h0 | hw
    · exact hgood p h0 hrec
    · rcases hWelim p.1 p.2 hw with ⟨k2, cat2, _, _, _, hn2, _⟩ | ⟨hn2, _⟩
      · left
        rw [hn2]
        exact sLower_generateFilename k2
      · right
        exact hn2
  · have h1 : ((applyUpserts (fsEnsureDir fs0) (passWrites d t1 fs0)).files.map Prod.fst).Nodup := by
      apply applyUpserts_nodup
      rw [hfiles0]
      exact hnodup
    exact List.Nodup.sublist (List.Sublist.map _ (List.filter_sublist _)) h1
  · intro k cat he hemp
    by_cases hs : catStep (passSnapshot fs0) k cat = .unchangedO
    · obtain ⟨ef, hf, hn⟩ := catStep_unchanged_elim _ k cat hs
      have hefmem := List.mem_of_find?_eq_some hf
      have hpb := List.find?_some hf
      have hps : sLower ef.filename = generateFilename k := by
        have h0 : sLower ef.filename = sLower (generateFilename k) := of_decide_eq_true hpb
        rw [sLower_generateFilename] at h0
        exact h0
      obtain ⟨hmm, hrec⟩ := mem_readExistingRules_elim (fsEnsureDir fs0) ef hefmem
      have hmm0 : (ef.filename, ef.content) ∈ fs0.files := by
        rw [← hfiles0]
        exact hmm
      have hfn : ef.filename = generateFilename k := by
        rcases hgood (ef.filename, ef.content) hmm0 hrec with hg | hg
        · have hg2 : sLower ef.filename = ef.filename := hg
          rw [← hg2]
          exact hps
        · have hg2 : ef.filename = summaryFilename := hg
          exfalso
          rw [hg2, sLower_summaryFilename] at hps
          exact (generateFilename_ne_readme k).1 hps.symm
      refine ⟨ef.content, ?_, (needsUpdate_false_iff _ _).mp hn⟩
      apply List.mem_filter.mpr
      constructor
      · apply applyUpserts_mem_frame
        · rw [hfiles0, ← hfn]
          exact hmm0
        · intro hcontra
          obtain ⟨pw, hpw, hpwe⟩ := List.mem_map.mp hcontra
          rcases hWelim pw.1 pw.2 hpw with ⟨k2, cat2, he2, hemp2, hs2, hn2, _⟩ | ⟨hn2, _⟩
          · have hgf : generateFilename k2 = generateFilename k := by
              rw [← hn2, hpwe]
            have heq := filterMap_nodup_unique _ d (k, some cat) (k2, some cat2)
              (generateFilename k) hinj he (by simp [hemp]) he2 (by simp [hemp2, hgf])
            have hk : k = k2 := congrArg Prod.fst heq
            have hc : some cat = some cat2 := congrArg Prod.snd heq
            injection hc with hc2
            exact hs2 (by rw [← hk, ← hc2]; exact hs)
          · have hcontra2 : generateFilename k = summaryFilename := by
              rw [← hpwe]
              exact hn2
            exact (generateFilename_ne_readme k).2 hcontra2
      · have := hstale_gf k cat he hemp
        show (!(staleName (passKeepLower d t1 fs0) (generateFilename k))) = true
        rw [this]
        rfl
    · refine ⟨convertToMDC k cat, ?_, rfl⟩
      apply List.mem_filter.mpr
      constructor
      · apply applyUpserts_mem_write _ _ _ _ hWnodup
        exact List.mem_append.mpr (Or.inl (mem_catWrites_intro _ d k cat he hemp hs))
      · have := hstale_gf k cat he hemp
        show (!(staleName (passKeepLower d t1 fs0) (generateFilename k))) = true
        rw [this]
        rfl
  · intro p hp hlow
    obtain ⟨horig, _⟩ := hmemElim p.1 p.2 hp
    rcases horig with h0 | hw
    · rw [needsUpdate_true_iff]
      exact hreadme p h0 hlow
    · rcases hWelim p.1 p.2 hw with ⟨k2, cat2, _, _, _, hn2, _⟩ | ⟨hn2, hc2⟩
      · exfalso
        rw [hn2, sLower_generateFilename] at hlow
        exact (generateFilename_ne_readme k2).1 hlow
      · rw [hc2, needsUpdate_true_iff]
        exact hsum
  · rcases summaryWrites_cases d t1 (passSnapshot fs0) (passSnapshotLower fs0) with hca | hca
    · refine ⟨(summaryFilename, createSummary d t1), ?_,
        recognizedExt_summaryFilename, sLower_summaryFilename⟩
      apply List.mem_filter.mpr
      constructor
      · apply applyUpserts_mem_write _ _ _ _ hWnodup
        apply List.mem_append.mpr
        right
        rw [hca]
        exact List.mem_singleton.mpr rfl
      · show (!(staleName (passKeepLower d t1 fs0) summaryFilename)) = true
        rw [hstale_readme]
        rfl
    · have hcontains := summaryWrites_eq_nil_elim d t1 (passSnapshot fs0)
        (passSnapshotLower fs0) hca
      rw [sLower_summaryFilename] at hcontains
      have hmem2 : "readme.md" ∈ passSnapshotLower fs0 := List.elem_iff.mp hcontains
      obtain ⟨ef, hef, hefe⟩ := List.mem_map.mp hmem2
      obtain ⟨hmm, hrec⟩ := mem_readExistingRules_elim (fsEnsureDir fs0) ef hef
      refine ⟨(ef.filename, ef.content), ?_, hrec, hefe⟩
      apply List.mem_filter.mpr
      constructor
      · apply applyUpserts_mem_frame
        · exact hmm
        · intro hcontra
          obtain ⟨pw, hpw, hpwe⟩ := List.mem_map.mp hcontra
          rcases List.mem_append.mp hpw with hpw2 | hpw2
          · obtain ⟨k2, cat2, _, _, _, hn2, _⟩ := mem_catWrites_elim _ _ pw.1 pw.2 hpw2
            have hf2 : ef.filename = generateFilename k2 := by
              rw [← hpwe]
              exact hn2
            rw [hf2, sLower_generateFilename] at hefe
            exact (generateFilename_ne_readme k2).1 hefe
          · rw [hca] at hpw2
            simp at hpw2
      · have hc : (passKeepLower d t1 fs0).contains (sLower ef.filename) = true := by
          rw [hefe]
          exact List.elem_eq_true_of_mem hreadme_in_keep
        show (!(staleName (passKeepLower d t1 fs0) ef.filename)) = true
        unfold staleName
        rw [hc]
        rfl

/-- A value that is not a wrapper object passes through the unwrap step
unchanged. -/
theorem unwrapOnce_of_not_wrapper (v : Json) (h : isWrapperObj v = false) :
    unwrapOnce v = .ok v := by
  cases v with
  | jobj fields =>
    simp only [isWrapperObj] at h
    simp only [unwrapOnce]
    cases hg : jsGet fields "result" with
    | none => rfl
    | some w =>
      cases w <;> simp only []
      case jstr s => rw [hg] at h; simp at h
  | jnull => rfl
  | jbool b => rfl
  | jnum l => rfl
  | jstr s => rfl
  | jarr xs => rfl

/-! ## Claim C1 -/

/-- Claim C1 as stated is false: the claim says the invoker extracts the
first balanced top-level JSON object substring of stdout by brace
matching and parses it, which on the stdout below would extract the
parseable object before the second brace group and succeed; the code
instead matches greedily from the first opening brace to the last closing
brace, so on this stdout (exit code 0) it attempts to parse both objects
as one document and reports failure. -/
theorem claim1_counterexample :
    (onClose 0 "\x7b\"a\":1\x7d \x7b\"b\":2\x7d" "").success = false ∧
    firstBalancedObject "\x7b\"a\":1\x7d \x7b\"b\":2\x7d" = some "\x7b\"a\":1\x7d" ∧
    jsParse "\x7b\"a\":1\x7d" = .ok (.jobj [("a", .jnum "1")]) :=
  ⟨rfl, rfl, rfl⟩

/-- Claim C1, amended: on exit code 0 the invoker extracts the substring
of stdout from the first opening brace to the last closing brace (the
greedy regex match, not the first balanced object) and parses it,
returning it as the analysis data when no wrapper unwrap applies; when no
brace-delimited candidate exists it returns success:false with the
`No JSON found` error and retains the raw stdout. -/
theorem claim1_amended :
    (∀ s : String, jsonCandidate s = none →
      onClose 0 s "" = ⟨false, none, some noJsonMsg, some s⟩) ∧
    (∀ (s c : String) (v : Json), jsonCandidate s = some c →
      jsParse c = .ok v → isWrapperObj v = false →
      onClose 0 s "" = ⟨true, some v, none, some s⟩) := by
  constructor
  · intro s h
    simp only [onClose, parseStdout, h, ne_eq, not_true_eq_false, if_false]
  · intro s c v h1 h2 h3
    have hw := unwrapOnce_of_not_wrapper v h3
    simp only [onClose, parseStdout, h1, h2, Except.bind, hw, ne_eq,
      not_true_eq_false, if_false]

/-- Witness for the amended claim C1, at the stdout of the spec's own
example scenario and at a stdout with no candidate substring. -/
theorem claim1_witness :
    onClose 0 "no json here" "" =
      ⟨false, none, some noJsonMsg, some "no json here"⟩ ∧
    onClose 0 "noise \x7b\"a\":1\x7d trailing" "" =
      ⟨true, some (.jobj [("a", .jnum "1")]), none,
       some "noise \x7b\"a\":1\x7d trailing"⟩ :=
  ⟨claim1_amended.1 "no json here" rfl,
   claim1_amended.2 "noise \x7b\"a\":1\x7d trailing" "\x7b\"a\":1\x7d"
     (.jobj [("a", .jnum "1")]) rfl rfl rfl⟩

/-! ## Claim C2 -/

/-- Claim C2: when the parsed top-level object carries the wrapper field
(the string-valued `result` property) and the inner string has a
brace-delimited candidate that parses, the invoker unwraps exactly one
level: the returned data is the inner parse result itself, whatever its
shape, so a doubly-wrapped payload is not recursively unwrapped. -/
theorem claim2_invoker_unwraps_once (stdout cand inner c2 stderr : String)
    (fields : List (String × Json)) (v2 : Json)
    (h1 : jsonCandidate stdout = some cand)
    (h2 : jsParse cand = .ok (.jobj fields))
    (h3 : jsGet fields "result" = some (.jstr inner))
    (h4 : jsonCandidate inner = some c2)
    (h5 : jsParse c2 = .ok v2) :
    onClose 0 stdout stderr = ⟨true, some v2, none, some stdout⟩ := by
  simp only [onClose, parseStdout, h1, h2, Except.bind, unwrapOnce, h3, h4, h5,
    ne_eq, not_true_eq_false, if_false]

/-- Witness for claim C2: a doubly-wrapped stdout is unwrapped exactly
once, so the returned data is still a wrapper object holding the
innermost payload as an uninterpreted string. -/
theorem claim2_witness :
    onClose 0
      "\x7b\"result\":\"\x7b\\\"result\\\":\\\"\x7b\\\\\\\"a\\\\\\\":1\x7d\\\"\x7d\"\x7d"
      "" =
    ⟨true,
     some (.jobj [("result", .jstr "\x7b\"a\":1\x7d")]), none,
     some "\x7b\"result\":\"\x7b\\\"result\\\":\\\"\x7b\\\\\\\"a\\\\\\\":1\x7d\\\"\x7d\"\x7d"⟩ :=
  claim2_invoker_unwraps_once
    "\x7b\"result\":\"\x7b\\\"result\\\":\\\"\x7b\\\\\\\"a\\\\\\\":1\x7d\\\"\x7d\"\x7d"
    "\x7b\"result\":\"\x7b\\\"result\\\":\\\"\x7b\\\\\\\"a\\\\\\\":1\x7d\\\"\x7d\"\x7d"
    "\x7b\"result\":\"\x7b\\\"a\\\":1\x7d\"\x7d"
    "\x7b\"result\":\"\x7b\\\"a\\\":1\x7d\"\x7d"
    ""
    [("result", .jstr "\x7b\"result\":\"\x7b\\\"a\\\":1\x7d\"\x7d")]
    (.jobj [("result", .jstr "\x7b\"a\":1\x7d")])
    rfl rfl rfl rfl rfl

/-! ## Claim C10 -/

/-- Claim C10: when the extracted top-level object has a string-valued
`result` field containing no brace-delimited substring, the invoker does
not report a parse failure: it returns success:true with the outer
wrapper object itself as the analysis data. -/
theorem claim10_wrapper_kept (stdout cand inner stderr : String)
    (fields : List (String × Json))
    (h1 : jsonCandidate stdout = some cand)
    (h2 : jsParse cand = .ok (.jobj fields))
    (h3 : jsGet fields "result" = some (.jstr inner))
    (h4 : jsonCandidate inner = none) :
    onClose 0 stdout stderr = ⟨true, some (.jobj fields), none, some stdout⟩ := by
  simp only [onClose, parseStdout, h1, h2, Except.bind, unwrapOnce, h3, h4,
    ne_eq, not_true_eq_false, if_false]

/-- Witness for claim C10: a wrapper whose `result` string has no braces
is returned as-is with success:true. -/
theorem claim10_witness :
    onClose 0 "\x7b\"result\":\"hello\"\x7d" "" =
      ⟨true, some (.jobj [("result", .jstr "hello")]), none,
       some "\x7b\"result\":\"hello\"\x7d"⟩ :=
  claim10_wrapper_kept "\x7b\"result\":\"hello\"\x7d"
    "\x7b\"result\":\"hello\"\x7d" "hello" ""
    [("result", .jstr "hello")] rfl rfl rfl rfl

/-! ## Claim C4 -/

/-- Claim C4 as stated is false: the keep-set membership check is
case-insensitive (both sides lowercased), not literal.  With keep-set
`README.md` and an existing file `readme.md`, the file's name is not in
the keep-set, so the claim requires it to be deleted; the code keeps it
and removes nothing. -/
theorem claim4_counterexample :
    cleanupOldRules ⟨true, [("readme.md", "old")], []⟩ ["README.md"] false =
      .ok ([], ⟨true, [("readme.md", "old")], []⟩) ∧
    recognizedExt "readme.md" = true ∧
    "readme.md" ∉ (["README.md"] : List String) :=
  ⟨rfl, rfl, by decide⟩

/-- Claim C4, amended: with no failing path, the cleanup pass deletes
exactly those files with a recognized extension whose LOWERCASED names
are not among the lowercased keep names, and deletes nothing when the
keep-set equals the set of existing recognized-extension files. -/
theorem claim4_amended (fs : FS) (keepFiles : List String)
    (hb : fs.broken = []) (hd : fs.dirExists = true) :
    cleanupOldRules fs keepFiles false =
      .ok ((fs.files.map Prod.fst).filter (staleName (keepFiles.map sLower)),
           { fs with
             files := fs.files.filter
               (fun p => !(staleName (keepFiles.map sLower) p.1)) }) ∧
    ((∀ n, (n ∈ fs.files.map Prod.fst ∧ recognizedExt n = true) ↔ n ∈ keepFiles) →
      cleanupOldRules fs keepFiles false = .ok ([], fs)) := by
  have hmain := cleanupOldRules_wet fs keepFiles hb hd
  refine ⟨hmain, fun hkeep => ?_⟩
  have hstale : ∀ n ∈ fs.files.map Prod.fst,
      staleName (keepFiles.map sLower) n = false := by
    intro n hn
    by_cases hrec : recognizedExt n
    · have hk : n ∈ keepFiles := (hkeep n).mp ⟨hn, hrec⟩
      have hklow : sLower n ∈ keepFiles.map sLower := List.mem_map_of_mem sLower hk
      have hc : (keepFiles.map sLower).contains (sLower n) = true :=
        List.elem_eq_true_of_mem hklow
      simp only [staleName, hc, Bool.not_true, Bool.false_and]
    · have hrec2 : recognizedExt n = false := by simpa using hrec
      simp only [staleName, hrec2, Bool.and_false]
  rw [hmain]
  refine congrArg Except.ok ?_
  refine Prod.ext ?_ ?_
  · simp only []
    rw [List.filter_eq_nil_iff]
    intro n hn
    simp [hstale n hn]
  · simp only []
    have : fs.files.filter (fun p => !(staleName (keepFiles.map sLower) p.1)) =
        fs.files := by
      rw [List.filter_eq_self]
      intro p hp
      have := hstale p.1 (List.mem_map_of_mem Prod.fst hp)
      simp [this]
    rw [this]

/-- Witness for the amended claim C4 at a directory holding two
recognized files (one kept, one stale) and one unrecognized file, and at
a directory whose recognized files equal the keep-set. -/
theorem claim4_witness :
    cleanupOldRules ⟨true, [("a.mdc", "x"), ("b.mdc", "y"), ("notes.bak", "z")], []⟩
        ["a.mdc"] false =
      .ok (["b.mdc"],
           ⟨true, [("a.mdc", "x"), ("notes.bak", "z")], []⟩) ∧
    cleanupOldRules ⟨true, [("a.mdc", "x")], []⟩ ["a.mdc"] false =
      .ok ([], ⟨true, [("a.mdc", "x")], []⟩) :=
  ⟨(claim4_amended ⟨true, [("a.mdc", "x"), ("b.mdc", "y"), ("notes.bak", "z")], []⟩
      ["a.mdc"] rfl rfl).1,
   (claim4_amended ⟨true, [("a.mdc", "x")], []⟩ ["a.mdc"] rfl rfl).2 (by
     intro n
     constructor
     · rintro ⟨h1, _⟩
       simpa using h1
     · intro h1
       have h2 : n = "a.mdc" := by simpa using h1
       subst h2
       exact ⟨by simp, by decide⟩)⟩

/-! ## Claim C7 -/

/-- Claim C7: the frontmatter flag rendered by `convertToMDC` follows
the claimed priority: explicit `alwaysApply` wins, else
`ruleType = always` forces true, else the flag is true exactly for the
keys `bestPractices` and `conventions`. -/
theorem claim7_always_apply_policy (categoryName : String)
    (category : RuleCategory) :
    convertToMDC categoryName category =
      "---\n" ++
      "description: " ++ strOrElse category.description category.title ++ "\n" ++
      (match category.globs with
       | some gs =>
         if gs.length > 0 then "globs: " ++ jsStringifyStrList gs ++ "\n" else ""
       | none => "") ++
      "alwaysApply: " ++
      (if claimAlwaysApplyPolicy categoryName category then "true" else "false") ++
      "\n" ++ "---\n\n" ++ ruleBullets category.rules := by
  have h : mdcAlwaysApply categoryName category =
      claimAlwaysApplyPolicy categoryName category := by
    cases hA : category.alwaysApply with
    | some b => simp [mdcAlwaysApply, claimAlwaysApplyPolicy, hA]
    | none =>
      by_cases hR : category.ruleType = some RuleType.always
      · simp [mdcAlwaysApply, claimAlwaysApplyPolicy, hA, hR]
      · by_cases hB : categoryName = "bestPractices"
        · simp [mdcAlwaysApply, claimAlwaysApplyPolicy, hA, hR, hB]
        · by_cases hC : categoryName = "conventions"
          · simp [mdcAlwaysApply, claimAlwaysApplyPolicy, hA, hR, hB, hC]
          · simp [mdcAlwaysApply, claimAlwaysApplyPolicy, hA, hR, hB, hC]
  simp only [convertToMDC, h]

/-! ## Claim C8 -/

/-- Claim C8 as stated is false: two distinct category keys may derive
the SAME filename, and then the empty category's derived filename does
appear in the result lists (produced by the colliding non-empty
category).  Below, the empty category `a b` and the non-empty category
with two spaces both derive `a-b.mdc`, which is listed as created. -/
theorem claim8_counterexample :
    generateFilename "a b" = "a-b.mdc" ∧
    generateFilename "a  b" = "a-b.mdc" ∧
    catSkipped (some ({ title := "E", rules := [] } : RuleCategory)) = true ∧
    (writeRules
      [("a b", some { title := "E", rules := [] }),
       ("a  b", some { title := "TB", rules := [{ name := "R", description := "D" }] })]
      false "T" ⟨true, [], []⟩).1.created = ["a-b.mdc", "README.md"] :=
  ⟨rfl, rfl, rfl, rfl⟩

/-- Claim C8, amended: for every skipped category entry (absent or with
an empty rule sequence) whose derived filename is not produced by any
non-skipped category, synchronization lists that filename in none of the
result lists, after a non-dry pass with no failing path no file of that
name remains on disk, and the category is omitted from the summary
document (removing the entry does not change the summary text). -/
theorem claim8_amended (d : AnalysisData) (now : String) (fs0 : FS)
    (key : String) (c : Option RuleCategory)
    (hb : fs0.broken = [])
    (hskip : catSkipped c = true)
    (hother : generateFilename key ∉ processedFilenames d) :
    generateFilename key ∉ (writeRules d false now fs0).1.created ∧
    generateFilename key ∉ (writeRules d false now fs0).1.updated ∧
    generateFilename key ∉ (writeRules d false now fs0).1.unchanged ∧
    (∀ x, (generateFilename key, x) ∉ (writeRules d false now fs0).2.files) ∧
    (∀ pre post, d = pre ++ (key, c) :: post →
      createSummary d now = createSummary (pre ++ post) now) := by
  have hne := generateFilename_ne_readme key
  have hcat : ∀ f, f ∈ createdOf (readExistingRules (fsEnsureDir fs0)) d ∨
      f ∈ updatedOf (readExistingRules (fsEnsureDir fs0)) d ∨
      f ∈ unchangedOf (readExistingRules (fsEnsureDir fs0)) d →
      f ∈ processedFilenames d := by
    intro f hf
    rcases hf with h | h | h
    · obtain ⟨k2, cat2, he2, hemp2, _, heq2⟩ := mem_createdOf_elim _ _ _ h
      rw [heq2]
      exact mem_processedFilenames_intro d k2 cat2 he2 hemp2
    · obtain ⟨k2, cat2, he2, hemp2, _, heq2⟩ := mem_updatedOf_elim _ _ _ h
      rw [heq2]
      exact mem_processedFilenames_intro d k2 cat2 he2 hemp2
    · obtain ⟨k2, cat2, he2, hemp2, _, heq2⟩ := mem_unchangedOf_elim _ _ _ h
      rw [heq2]
      exact mem_processedFilenames_intro d k2 cat2 he2 hemp2
  have hres : ∀ m, (m ∈ (summaryOutcome d now (readExistingRules (fsEnsureDir fs0))
      ((readExistingRules (fsEnsureDir fs0)).map (fun r => sLower r.filename))
      (classifyCats (readExistingRules (fsEnsureDir fs0)) d ⟨true, [], [], [], none⟩)).created ∨
      m ∈ (summaryOutcome d now (readExistingRules (fsEnsureDir fs0))
      ((readExistingRules (fsEnsureDir fs0)).map (fun r => sLower r.filename))
      (classifyCats (readExistingRules (fsEnsureDir fs0)) d ⟨true, [], [], [], none⟩)).updated ∨
      m ∈ (summaryOutcome d now (readExistingRules (fsEnsureDir fs0))
      ((readExistingRules (fsEnsureDir fs0)).map (fun r => sLower r.filename))
      (classifyCats (readExistingRules (fsEnsureDir fs0)) d ⟨true, [], [], [], none⟩)).unchanged) →
      m ∈ processedFilenames d ∨ m = summaryFilename := by
    intro m hm
    rcases hm with h4 | h4 | h4
    · rcases summaryOutcome_created_elim _ _ _ _ _ _ h4 with h5 | h5
      · exact Or.inl (hcat _ (Or.inl (by simpa [classifyCats] using h5)))
      · exact Or.inr h5
    · rcases summaryOutcome_updated_elim _ _ _ _ _ _ h4 with h5 | h5
      · exact Or.inl (hcat _ (Or.inr (Or.inl (by simpa [classifyCats] using h5))))
      · exact Or.inr h5
    · rcases summaryOutcome_unchanged_elim _ _ _ _ _ _ h4 with h5 | h5
      · exact Or.inl (hcat _ (Or.inr (Or.inr (by simpa [classifyCats] using h5))))
      · exact Or.inr h5
  simp only [writeRules_wet d now fs0 hb]
  refine ⟨?_, ?_, ?_, ?_, ?_⟩
  · intro hmem2
    rcases hres _ (Or.inl hmem2) with h4 | h4
    · exact hother h4
    · exact hne.2 h4
  · intro hmem2
    rcases hres _ (Or.inr (Or.inl hmem2)) with h4 | h4
    · exact hother h4
    · exact hne.2 h4
  · intro hmem2
    rcases hres _ (Or.inr (Or.inr hmem2)) with h4 | h4
    · exact hother h4
    · exact hne.2 h4
  · intro x hmem2
    have h3 := List.mem_filter.mp hmem2
    have hstale : staleName
        (((summaryOutcome d now (readExistingRules (fsEnsureDir fs0))
          ((readExistingRules (fsEnsureDir fs0)).map (fun r => sLower r.filename))
          (classifyCats (readExistingRules (fsEnsureDir fs0)) d ⟨true, [], [], [], none⟩)).created ++
          (summaryOutcome d now (readExistingRules (fsEnsureDir fs0))
          ((readExistingRules (fsEnsureDir fs0)).map (fun r => sLower r.filename))
          (classifyCats (readExistingRules (fsEnsureDir fs0)) d ⟨true, [], [], [], none⟩)).updated ++
          (summaryOutcome d now (readExistingRules (fsEnsureDir fs0))
          ((readExistingRules (fsEnsureDir fs0)).map (fun r => sLower r.filename))
          (classifyCats (readExistingRules (fsEnsureDir fs0)) d ⟨true, [], [], [], none⟩)).unchanged).map sLower)
        (generateFilename key) = false := by
      simpa using h3.2
    have hrec := recognizedExt_generateFilename key
    unfold staleName at hstale
    rw [sLower_generateFilename, hrec, Bool.and_true] at hstale
    have hcont : (((summaryOutcome d now (readExistingRules (fsEnsureDir fs0))
        ((readExistingRules (fsEnsureDir fs0)).map (fun r => sLower r.filename))
        (classifyCats (readExistingRules (fsEnsureDir fs0)) d ⟨true, [], [], [], none⟩)).created ++
        (summaryOutcome d now (readExistingRules (fsEnsureDir fs0))
        ((readExistingRules (fsEnsureDir fs0)).map (fun r => sLower r.filename))
        (classifyCats (readExistingRules (fsEnsureDir fs0)) d ⟨true, [], [], [], none⟩)).updated ++
        (summaryOutcome d now (readExistingRules (fsEnsureDir fs0))
        ((readExistingRules (fsEnsureDir fs0)).map (fun r => sLower r.filename))
        (classifyCats (readExistingRules (fsEnsureDir fs0)) d ⟨true, [], [], [], none⟩)).unchanged).map sLower).contains
        (generateFilename key) = true := by
      by_cases hX : (((summaryOutcome d now (readExistingRules (fsEnsureDir fs0))
          ((readExistingRules (fsEnsureDir fs0)).map (fun r => sLower r.filename))
          (classifyCats (readExistingRules (fsEnsureDir fs0)) d ⟨true, [], [], [], none⟩)).created ++
          (summaryOutcome d now (readExistingRules (fsEnsureDir fs0))
          ((readExistingRules (fsEnsureDir fs0)).map (fun r => sLower r.filename))
          (classifyCats (readExistingRules (fsEnsureDir fs0)) d ⟨true, [], [], [], none⟩)).updated ++
          (summaryOutcome d now (readExistingRules (fsEnsureDir fs0))
          ((readExistingRules (fsEnsureDir fs0)).map (fun r => sLower r.filename))
          (classifyCats (readExistingRules (fsEnsureDir fs0)) d ⟨true, [], [], [], none⟩)).unchanged).map sLower).contains
          (generateFilename key) = true
      · exact hX
      · have hX2 := Bool.eq_false_iff.mpr hX
        rw [hX2] at hstale
        exact absurd hstale (by decide)
    obtain ⟨m, hm, hml⟩ := List.mem_map.mp (List.elem_iff.mp hcont)
    have hm3 : m ∈ (summaryOutcome d now (readExistingRules (fsEnsureDir fs0))
        ((readExistingRules (fsEnsureDir fs0)).map (fun r => sLower r.filename))
        (classifyCats (readExistingRules (fsEnsureDir fs0)) d ⟨true, [], [], [], none⟩)).created ∨
        m ∈ (summaryOutcome d now (readExistingRules (fsEnsureDir fs0))
        ((readExistingRules (fsEnsureDir fs0)).map (fun r => sLower r.filename))
        (classifyCats (readExistingRules (fsEnsureDir fs0)) d ⟨true, [], [], [], none⟩)).updated ∨
        m ∈ (summaryOutcome d now (readExistingRules (fsEnsureDir fs0))
        ((readExistingRules (fsEnsureDir fs0)).map (fun r => sLower r.filename))
        (classifyCats (readExistingRules (fsEnsureDir fs0)) d ⟨true, [], [], [], none⟩)).unchanged := by
      rcases List.mem_append.mp hm with h4 | h4
      · rcases List.mem_append.mp h4 with h5 | h5
        · exact Or.inl h5
        · exact Or.inr (Or.inl h5)
      · exact Or.inr (Or.inr h4)
    rcases hres m hm3 with h4 | h4
    · obtain ⟨k2, cat2, he2, hemp2, heq2⟩ := mem_processedFilenames_elim _ _ h4
      rw [heq2, sLower_generateFilename] at hml
      exact hother (hml ▸ mem_processedFilenames_intro d k2 cat2 he2 hemp2)
    · rw [h4] at hml
      have hsf : sLower summaryFilename = "readme.md" := rfl
      rw [hsf] at hml
      exact hne.1 hml.symm
  · intro pre post hd2
    rw [hd2]
    exact createSummary_skip_invariant now key c hskip pre post

/-- Witness for the amended claim C8: an empty category whose stale file
pre-exists on disk is listed nowhere, its file is removed by the pass,
and the summary is unchanged by dropping the entry. -/
theorem claim8_witness :
    "empty.mdc" ∉ (writeRules
      [("empty", some { title := "E", rules := [] }),
       ("frameworks", some { title := "Frameworks", rules := [{ name := "R1", description := "D1" }] })]
      false "T" ⟨true, [("empty.mdc", "old")], []⟩).1.created ∧
    "empty.mdc" ∉ (writeRules
      [("empty", some { title := "E", rules := [] }),
       ("frameworks", some { title := "Frameworks", rules := [{ name := "R1", description := "D1" }] })]
      false "T" ⟨true, [("empty.mdc", "old")], []⟩).1.updated ∧
    "empty.mdc" ∉ (writeRules
      [("empty", some { title := "E", rules := [] }),
       ("frameworks", some { title := "Frameworks", rules := [{ name := "R1", description := "D1" }] })]
      false "T" ⟨true, [("empty.mdc", "old")], []⟩).1.unchanged ∧
    ("empty.mdc", "old") ∉ (writeRules
      [("empty", some { title := "E", rules := [] }),
       ("frameworks", some { title := "Frameworks", rules := [{ name := "R1", description := "D1" }] })]
      false "T" ⟨true, [("empty.mdc", "old")], []⟩).2.files ∧
    createSummary
      [("empty", some { title := "E", rules := [] }),
       ("frameworks", some { title := "Frameworks", rules := [{ name := "R1", description := "D1" }] })]
      "T" =
    createSummary
      [("frameworks", some { title := "Frameworks", rules := [{ name := "R1", description := "D1" }] })]
      "T" :=
  have h := claim8_amended
    [("empty", some { title := "E", rules := [] }),
     ("frameworks", some { title := "Frameworks", rules := [{ name := "R1", description := "D1" }] })]
    "T" ⟨true, [("empty.mdc", "old")], []⟩ "empty"
    (some { title := "E", rules := [] }) rfl rfl (by decide)
  ⟨h.1, h.2.1, h.2.2.1, h.2.2.2.1 "old",
   h.2.2.2.2 []
     [("frameworks", some { title := "Frameworks", rules := [{ name := "R1", description := "D1" }] })]
     rfl⟩

/-! ## Claim C9 -/

/-- Claim C9: for every non-empty raw output string, the fallback
structuring returns an AnalysisData with exactly the five conventional
categories: `codePatterns` holds a single rule whose description is the
whole raw text, the other four categories are present with empty rule
sequences (hence skipped at write time), and the orchestrator's fallback
step turns any failed invoker result carrying this raw output into a
successful result holding exactly this data. -/
theorem claim9_fallback_shape (raw : String) (hraw : raw ≠ "") :
    ∃ d, parseRawOutput raw = some d ∧
      d.map Prod.fst =
        ["codePatterns", "frameworks", "structure", "conventions", "bestPractices"] ∧
      (∃ cp, d.head? = some ("codePatterns", some cp) ∧
        cp.rules = [{ name := "Analysis Output", description := raw }]) ∧
      (∀ e ∈ d.tail, catSkipped e.2 = true) ∧
      (∀ r : AnalysisResultS, r.success = false → r.rawOutput = some raw →
        (fallbackStep r).success = true ∧ (fallbackStep r).data = some d) := by
  refine ⟨_, rfl, rfl, ⟨_, rfl, rfl⟩, ?_, ?_⟩
  · intro e he
    simp only [List.tail_cons, List.mem_cons, List.mem_singleton] at he
    rcases he with h | h | h | h | h
    all_goals
      first
      | (rw [h]; rfl)
      | (simp only [List.not_mem_nil] at h)
  · intro r hs ho
    simp only [fallbackStep, hs, ho, if_neg hraw, Bool.false_eq_true, if_false]
    exact ⟨rfl, rfl⟩

/-! ## Claim C5 -/

/-- Claim C5: with no failing path, a dry run leaves the file system
unchanged and returns exactly the classification lists a non-dry run on
the same pre-state would return.  The invariant hypothesis states that a
directory that does not exist holds no files, which is true of every
real file-system state. -/
theorem claim5_dry_run_frame (d : AnalysisData) (now : String) (fs0 : FS)
    (hb : fs0.broken = []) (hinv : fs0.dirExists = false → fs0.files = []) :
    (writeRules d true now fs0).2 = fs0 ∧
    (writeRules d true now fs0).1 = (writeRules d false now fs0).1 := by
  have hsnap : readExistingRules fs0 = readExistingRules (fsEnsureDir fs0) := by
    by_cases hd : fs0.dirExists
    · simp [fsEnsureDir, hd]
    · have hf : fs0.files = [] := hinv (by simpa using hd)
      simp [readExistingRules, fsEnsureDir, hd, hf]
  rw [writeRules_dry, writeRules_wet d now fs0 hb]
  refine ⟨rfl, ?_⟩
  rw [hsnap]

/-- Witness for claim C5: a dry run over a directory holding a stale
rule file reports the same lists as the real run and leaves the file
in place. -/
theorem claim5_witness :
    (writeRules
      [("frameworks", some { title := "Frameworks", rules := [{ name := "R1", description := "D1" }] })]
      true "2024-01-01T00:00:00.000Z" ⟨true, [("old.mdc", "x")], []⟩).2 =
      ⟨true, [("old.mdc", "x")], []⟩ ∧
    (writeRules
      [("frameworks", some { title := "Frameworks", rules := [{ name := "R1", description := "D1" }] })]
      true "2024-01-01T00:00:00.000Z" ⟨true, [("old.mdc", "x")], []⟩).1 =
    (writeRules
      [("frameworks", some { title := "Frameworks", rules := [{ name := "R1", description := "D1" }] })]
      false "2024-01-01T00:00:00.000Z" ⟨true, [("old.mdc", "x")], []⟩).1 :=
  claim5_dry_run_frame _ _ _ rfl (fun h => Bool.noConfusion h)

/-! ## Claim C6 -/

/-- Claim C6 as stated is false: when a file-system exception aborts the
pass, the catch handler resets the result lists, so the files already
written before the error are NOT listed.  Below, writing `alpha.mdc`
succeeds and writing `beta.mdc` raises: the final state retains
`alpha.mdc` (no rollback), yet the returned created list is empty rather
than listing it. -/
theorem claim6_counterexample :
    (writeRules
      [("alpha", some { title := "TA", rules := [{ name := "R", description := "D" }] }),
       ("beta", some { title := "TB", rules := [{ name := "R", description := "D" }] })]
      false "T" ⟨true, [], ["beta.mdc"]⟩).1 =
      ⟨false, [], [], [], some "EACCES: permission denied, open beta.mdc"⟩ ∧
    ((writeRules
      [("alpha", some { title := "TA", rules := [{ name := "R", description := "D" }] }),
       ("beta", some { title := "TB", rules := [{ name := "R", description := "D" }] })]
      false "T" ⟨true, [], ["beta.mdc"]⟩).2.files.map Prod.fst) = ["alpha.mdc"] :=
  ⟨rfl, rfl⟩

/-- Claim C6, amended: when a file-system exception aborts the pass, the
synchronizer returns success:false carrying the exception message and
empty created, updated and unchanged lists; files written earlier in the
pass are not rolled back but they are not listed either. -/
theorem claim6_amended (d : AnalysisData) (dryRun : Bool) (now : String)
    (fs0 : FS) (h : (writeRules d dryRun now fs0).1.success = false) :
    (writeRules d dryRun now fs0).1.created = [] ∧
    (writeRules d dryRun now fs0).1.updated = [] ∧
    (writeRules d dryRun now fs0).1.unchanged = [] ∧
    ∃ m, (writeRules d dryRun now fs0).1.error = some m := by
  simp only [writeRules] at h ⊢
  cases hp : processCats (readExistingRules (if dryRun then fs0 else fsEnsureDir fs0))
      dryRun d ⟨true, [], [], [], none⟩ (if dryRun then fs0 else fsEnsureDir fs0) with
  | error e =>
    obtain ⟨msg, fsE⟩ := e
    simp only [hp] at h ⊢
    exact ⟨by trivial, by trivial, by trivial, msg, by trivial⟩
  | ok pr =>
    obtain ⟨res1, fsA⟩ := pr
    have hs1 : res1.success = true := processCats_ok_success _ _ _ _ _ _ _ hp
    simp only [hp] at h ⊢
    cases hs : summaryStep d now
        (readExistingRules (if dryRun then fs0 else fsEnsureDir fs0))
        ((readExistingRules (if dryRun then fs0 else fsEnsureDir fs0)).map
          (fun r => sLower r.filename)) dryRun res1 fsA with
    | error e =>
      obtain ⟨msg, fsE⟩ := e
      simp only [hs] at h ⊢
      exact ⟨by trivial, by trivial, by trivial, msg, by trivial⟩
    | ok pr2 =>
      obtain ⟨res2, fsB⟩ := pr2
      have hs2 : res2.success = true :=
        (summaryStep_ok_success _ _ _ _ _ _ _ _ _ hs).trans hs1
      simp only [hs] at h ⊢
      cases hc : cleanupOldRules fsB
          (res2.created ++ res2.updated ++ res2.unchanged) dryRun with
      | error e =>
        obtain ⟨msg, fsE⟩ := e
        simp only [hc] at h ⊢
        exact ⟨by trivial, by trivial, by trivial, msg, by trivial⟩
      | ok pr3 =>
        obtain ⟨removed, fsC⟩ := pr3
        simp only [hc] at h ⊢
        rw [hs2] at h
        exact absurd h (by simp)

/-- Witness for the amended claim C6, at a pass whose second category
write raises. -/
theorem claim6_witness :
    (writeRules
      [("alpha", some { title := "TA", rules := [{ name := "R", description := "D" }] }),
       ("beta", some { title := "TB", rules := [{ name := "R", description := "D" }] })]
      false "T" ⟨true, [], ["beta.mdc"]⟩).1.created = [] ∧
    (writeRules
      [("alpha", some { title := "TA", rules := [{ name := "R", description := "D" }] }),
       ("beta", some { title := "TB", rules := [{ name := "R", description := "D" }] })]
      false "T" ⟨true, [], ["beta.mdc"]⟩).1.updated = [] ∧
    (writeRules
      [("alpha", some { title := "TA", rules := [{ name := "R", description := "D" }] }),
       ("beta", some { title := "TB", rules := [{ name := "R", description := "D" }] })]
      false "T" ⟨true, [], ["beta.mdc"]⟩).1.unchanged = [] ∧
    ∃ m, (writeRules
      [("alpha", some { title := "TA", rules := [{ name := "R", description := "D" }] }),
       ("beta", some { title := "TB", rules := [{ name := "R", description := "D" }] })]
      false "T" ⟨true, [], ["beta.mdc"]⟩).1.error = some m :=
  claim6_amended _ false "T" ⟨true, [], ["beta.mdc"]⟩ rfl

/-- Witness for claim C9 at a concrete non-empty raw output and a
concrete failed invoker result. -/
theorem claim9_witness :
    ∃ d, parseRawOutput "agent chatter" = some d ∧
      d.map Prod.fst =
        ["codePatterns", "frameworks", "structure", "conventions", "bestPractices"] ∧
      (∃ cp, d.head? = some ("codePatterns", some cp) ∧
        cp.rules = [{ name := "Analysis Output", description := "agent chatter" }]) ∧
      (∀ e ∈ d.tail, catSkipped e.2 = true) ∧
      (∀ r : AnalysisResultS, r.success = false →
        r.rawOutput = some "agent chatter" →
        (fallbackStep r).success = true ∧ (fallbackStep r).data = some d) :=
  claim9_fallback_shape "agent chatter" (by decide)

/-! ## Claim C3 -/

/-- Claim C3 as stated is false: it quantifies over every `AnalysisData`
value and every directory state, but two distinct category keys whose
derived filenames collide break the second-pass stability. Below the
keys `A` and `a` both derive `a.mdc`; on the first pass the second write
wins, so on the second pass the category `A` compares against the
content written for `a`, differs, and is re-classified updated — the
second-pass updated list holds a category file besides the summary. -/
theorem claim3_counterexample :
    (writeRules
      [("A", some { title := "TA", rules := [{ name := "R", description := "D1" }] }),
       ("a", some { title := "TB", rules := [{ name := "R", description := "D2" }] })]
      false "T2"
      (writeRules
        [("A", some { title := "TA", rules := [{ name := "R", description := "D1" }] }),
         ("a", some { title := "TB", rules := [{ name := "R", description := "D2" }] })]
        false "T1" ⟨true, [], []⟩).2).1.updated = ["a.mdc", summaryFilename] ∧
    generateFilename "A" = generateFilename "a" := by
  constructor
  · set_option maxRecDepth 8192 in rfl
  · rfl

/-- Claim C3, amended: if no filesystem operation raises, the processed
category keys derive pairwise distinct filenames, the pre-existing
recognized-extension filenames are lowercase-invariant (or the summary
name), the two passes render distinct normalized summaries, and no
pre-existing readme content normalizes to the second summary, then
running the synchronizer twice with the same data yields on the second
pass an empty created list and an updated list holding exactly the
summary document. -/
theorem claim3_amended (d : AnalysisData) (t1 t2 : String) (fs0 : FS)
    (hb : fs0.broken = [])
    (hnodup : (fs0.files.map Prod.fst).Nodup)
    (hgood : ∀ p ∈ fs0.files, recognizedExt p.1 = true →
      sLower p.1 = p.1 ∨ p.1 = summaryFilename)
    (hinj : (processedFilenames d).Nodup)
    (hsum : normalize (createSummary d t1) ≠ normalize (createSummary d t2))
    (hreadme : ∀ p ∈ fs0.files, sLower p.1 = "readme.md" →
      normalize p.2 ≠ normalize (createSummary d t2)) :
    (writeRules d false t2 (writeRules d false t1 fs0).2).1.created = [] ∧
    (writeRules d false t2 (writeRules d false t1 fs0).2).1.updated =
      [summaryFilename] := by
  obtain ⟨h1, h2, h3, h4, h5, h6, h7⟩ :=
    first_pass_facts d t1 t2 fs0 hb hnodup hgood hinj hsum hreadme
  rw [writeRules_wet2 d t1 fs0 hb]
  exact second_pass_clean d t2 (passFS d t1 fs0) h1 h2 h3 h4 h5 h6 h7

/-- Witness for the amended claim C3, at the spec's own example data
over an empty directory with two distinct timestamps. -/
theorem claim3_witness :
    (writeRules
      [("frameworks", some { title := "Frameworks", rules := [{ name := "R1", description := "D1" }] })]
      false "T2"
      (writeRules
        [("frameworks", some { title := "Frameworks", rules := [{ name := "R1", description := "D1" }] })]
        false "T1" ⟨true, [], []⟩).2).1.created = [] ∧
    (writeRules
      [("frameworks", some { title := "Frameworks", rules := [{ name := "R1", description := "D1" }] })]
      false "T2"
      (writeRules
        [("frameworks", some { title := "Frameworks", rules := [{ name := "R1", description := "D1" }] })]
        false "T1" ⟨true, [], []⟩).2).1.updated = [summaryFilename] :=
  claim3_amended
    [("frameworks", some { title := "Frameworks", rules := [{ name := "R1", description := "D1" }] })]
    "T1" "T2" ⟨true, [], []⟩ rfl (by decide) (by simp) (by decide)
    (by set_option maxRecDepth 8192 in decide)
    (by simp)

end AutoCursorRules
